import Mathlib

/-!
Verification development for the `pylauncher` JavaFX artifact-cache manager
(`pylauncher/javafx.py`).  The Python module is shallowly embedded: pure
helpers become Lean functions on `String` / `List Char` / `List Nat` (bytes),
the network and the filesystem become an explicit environment (`Env`) and
store (`FS`), and Python exceptions that can escape a function become
`Except Unit` results.  SHA-1 itself is kept abstract as an environment
function `Env.sha1hex`; everything else is translated from the source.
-/

set_option linter.unusedVariables false

namespace PyLauncher

/-- Three-way comparison of naturals (Python integer comparison). -/
def natCmp (a b : Nat) : Ordering :=
  if a < b then .lt else if b < a then .gt else .eq

/-- Three-way comparison of characters by code point (Python `str` comparison
is code-point-wise). -/
def charCmp (a b : Char) : Ordering := natCmp a.toNat b.toNat

/-- Lexicographic comparison of lists, mirroring Python tuple/str comparison:
elementwise, with a strict prefix comparing less. -/
def lexCmp (c : α → α → Ordering) : List α → List α → Ordering
  | [], [] => .eq
  | [], _ :: _ => .lt
  | _ :: _, [] => .gt
  | a :: l, b :: m => (c a b).then (lexCmp c l m)

/-- Comparison of lists of naturals (Python tuple-of-int comparison). -/
def natListCmp : List Nat → List Nat → Ordering := lexCmp natCmp

/-- Comparison of strings (Python `str` comparison, by code points). -/
def strCmp (a b : String) : Ordering := lexCmp charCmp a.data b.data

/-- The sort key produced by `_version_key`: a tuple of the numeric parts and
the textual suffix. -/
abbrev VKey := List Nat × String

/-- Python comparison of `_version_key` results: lexicographic on the pair
(numeric tuple first, then suffix string). -/
def keyCmp (a b : VKey) : Ordering :=
  (natListCmp a.1 b.1).then (strCmp a.2 b.2)

/-- Helper for `str.split(sep)`: accumulator-based splitting on a single
character. -/
def splitOnCharAux (c : Char) : List Char → List Char → List (List Char)
  | [], acc => [acc.reverse]
  | x :: xs, acc =>
    if x = c then acc.reverse :: splitOnCharAux c xs []
    else splitOnCharAux c xs (x :: acc)

/-- Python `str.split(sep)` for a one-character separator (so
`"".split(".") == [""]` and separators at the ends produce empty parts). -/
def splitOnChar (c : Char) (l : List Char) : List (List Char) :=
  splitOnCharAux c l []

/-- Python `int(part)` as used on the dash-free dot-separated parts of a
version string: a nonempty run of ASCII digits parses to its value, anything
else raises `ValueError` (modelled as `none`).  (Python's `int` also accepts
signs, whitespace and underscores; those never reach this call site for the
identifiers the module manipulates, and the claims only quantify over
dotted-numeric cores.) -/
def digitsToNat (l : List Char) : Option Nat :=
  if l = [] then none
  else if l.all (fun ch => ch.isDigit) then
    some (l.foldl (fun n ch => n * 10 + (ch.toNat - 48)) 0)
  else none

/-- Parse every dot-separated part; `none` as soon as one part fails
(the `ValueError` from `int(part)` inside the tuple comprehension). -/
def allNats : List (List Char) → Option (List Nat)
  | [] => some []
  | p :: rest =>
    match digitsToNat p with
    | none => none
    | some n =>
      match allNats rest with
      | none => none
      | some ns => some (n :: ns)

/-- Python `version.partition("-")` restricted to the two components the
source uses: the part before the first dash and the part after it
(the whole string and `""` when there is no dash). -/
def partitionDash (l : List Char) : List Char × List Char :=
  match l.dropWhile (fun ch => ch ≠ '-') with
  | [] => (l, [])
  | _ :: tail => (l.takeWhile (fun ch => ch ≠ '-'), tail)

/-- `_version_key` (javafx.py:64-67).  `none` models the `ValueError` raised
by `int` on a non-numeric part. -/
def _version_key (version : String) : Option VKey :=
  let p := partitionDash version.data
  match allNats (splitOnChar '.' p.1) with
  | some numeric => some (numeric, String.mk p.2)
  | none => none

/-- Boolean list-prefix test (structural, kernel-friendly). -/
def startsWithL : List Char → List Char → Bool
  | [], _ => true
  | _ :: _, [] => false
  | p :: ps, x :: xs => if p = x then startsWithL ps xs else false

/-- ASCII lowercasing, as `str.lower()` on the `os.uname()` fields the
classifier inspects (those are ASCII on every platform the table covers). -/
def lowerAscii (s : String) : String := String.mk (s.data.map Char.toLower)

/-- `detect_system_classifier` (javafx.py:34-45), as a function of the
already-lowercased `sysname` and `machine` strings. -/
def detect_system_classifier (system machine : String) : Option String :=
  if startsWithL "win".data system.data then some "win"
  else if system = "darwin" then
    some (if machine = "arm64" ∨ machine = "aarch64" then "mac-aarch64" else "mac")
  else if startsWithL "linux".data system.data then
    some (if machine = "arm64" ∨ machine = "aarch64" then "linux-aarch64" else "linux")
  else none

/-- Kind of a network fetch, for the download log. -/
inductive DlKind
  | metadata
  | sha
  | jar
deriving DecidableEq, Repr

/-- Download log: every `urlopen` call made, in order, with its kind and URL. -/
abbrev Log := List (DlKind × String)

/-- The external world of one call: the host's `os.uname()` fields, the
network (a URL either transport-fails, modelling `HTTPError`/`URLError`/
`TimeoutError`, or returns a byte body), the SHA-1 hex digest function
(kept abstract), and the filesystem fault points (`OSError` while writing
the staging file, while renaming it over the target, or while unlinking a
cache entry; write/rename faults are indexed by the retry-attempt number). -/
structure Env where
  uname_sysname : String
  uname_machine : String
  net : String → Option (List Nat)
  sha1hex : List Nat → String
  tmpWriteFail : String → Nat → Bool
  replaceFail : String → Nat → Bool
  unlinkFail : String → Bool

/-- The memoized `detect_system_classifier()` value of the process. -/
def Env.classifier (e : Env) : Option String :=
  detect_system_classifier (lowerAscii e.uname_sysname) (lowerAscii e.uname_machine)

/-- Byte range test. -/
def inRange (lo hi b : Nat) : Bool := decide (lo ≤ b) && decide (b ≤ hi)

/-- UTF-8 continuation byte. -/
def contOk (b : Nat) : Bool := inRange 0x80 0xBF b

/-- Strict UTF-8 decoding (RFC 3629), as `bytes.decode("utf-8")`: rejects
overlong forms, surrogates and out-of-range code points; `none` models
`UnicodeDecodeError`. -/
def utf8Decode : List Nat → Option (List Char)
  | [] => some []
  | b :: rest =>
    if b ≤ 0x7F then
      match utf8Decode rest with
      | some cs => some (Char.ofNat b :: cs)
      | none => none
    else if inRange 0xC2 0xDF b then
      match rest with
      | c1 :: rest1 =>
        if contOk c1 then
          match utf8Decode rest1 with
          | some cs => some (Char.ofNat ((b - 0xC0) * 64 + (c1 - 0x80)) :: cs)
          | none => none
        else none
      | [] => none
    else if inRange 0xE0 0xEF b then
      match rest with
      | c1 :: c2 :: rest2 =>
        if (if b = 0xE0 then inRange 0xA0 0xBF c1
            else if b = 0xED then inRange 0x80 0x9F c1
            else contOk c1) && contOk c2 then
          match utf8Decode rest2 with
          | some cs =>
            some (Char.ofNat ((b - 0xE0) * 4096 + (c1 - 0x80) * 64 + (c2 - 0x80)) :: cs)
          | none => none
        else none
      | _ => none
    else if inRange 0xF0 0xF4 b then
      match rest with
      | c1 :: c2 :: c3 :: rest3 =>
        if (if b = 0xF0 then inRange 0x90 0xBF c1
            else if b = 0xF4 then inRange 0x80 0x8F c1
            else contOk c1) && contOk c2 && contOk c3 then
          match utf8Decode rest3 with
          | some cs =>
            some (Char.ofNat
              ((b - 0xF0) * 262144 + (c1 - 0x80) * 4096 + (c2 - 0x80) * 64 + (c3 - 0x80)) :: cs)
          | none => none
        else none
      | _ => none
    else none

/-- ASCII whitespace, as stripped by Python `str.strip()` (the stripped
digests and version tokens are ASCII). -/
def pySpace (c : Char) : Bool :=
  c = ' ' || c = '\t' || c = '\n' || c = '\r' || c = '\x0b' || c = '\x0c'

/-- Python `str.strip()`. -/
def pyStrip (l : List Char) : List Char :=
  ((l.dropWhile pySpace).reverse.dropWhile pySpace).reverse

/-- `_download(url).decode("utf-8").strip()` applied to a byte body; `none`
models `UnicodeDecodeError`. -/
def decodeStrip (bytes : List Nat) : Option String :=
  match utf8Decode bytes with
  | some cs => some (String.mk (pyStrip cs))
  | none => none

/-- `re.findall(r"<version>([^<]+)</version>", xml)`: scan for the literal
open tag, capture the nonempty run of non-`<` characters, and require the
literal close tag right after it; on failure resume one character later, on
success resume after the whole match (findall is leftmost, non-overlapping). -/
def findVersionTags : List Char → List (List Char)
  | [] => []
  | c :: rest =>
    if startsWithL "<version>".data (c :: rest) then
      let after := rest.drop 8
      let cap := after.takeWhile (fun ch => ch ≠ '<')
      let rest2 := after.dropWhile (fun ch => ch ≠ '<')
      if cap = [] then findVersionTags rest
      else if startsWithL "</version>".data rest2 then
        cap :: findVersionTags (rest2.drop 10)
      else findVersionTags rest
    else findVersionTags rest
termination_by l => l.length
decreasing_by
  all_goals simp_all [List.length_drop]
  · have h1 : ∀ (p : Char → Bool) (l : List Char), (l.dropWhile p).length ≤ l.length := by
      intro p l
      induction l with
      | nil => simp [List.dropWhile]
      | cons x xs ih =>
        rw [List.dropWhile]
        cases p x
        · simp
        · simp
          omega
    have h2 := h1 (fun ch => !decide (ch = '<')) (List.drop 8 tail)
    have h3 : (List.drop 8 tail).length = tail.length - 8 := List.length_drop 8 tail
    omega

def MAVEN_METADATA_URL : String :=
  "https://repo1.maven.org/maven2/org/openjfx/javafx-base/maven-metadata.xml"

/-- `_iter_versions_from_metadata` (javafx.py:70-80), fully consumed as
`list(...)` does at javafx.py:91.  Transport errors (`HTTPError`, `URLError`,
`TimeoutError`) are caught and give the empty list; a `UnicodeDecodeError`
from `response.read().decode("utf-8")` is NOT caught there and propagates
(`Except.error`). -/
def _iter_versions_from_metadata (e : Env) : Except Unit (List String) × Log :=
  let log : Log := [(DlKind.metadata, MAVEN_METADATA_URL)]
  match e.net MAVEN_METADATA_URL with
  | none => (.ok [], log)
  | some bytes =>
    match utf8Decode bytes with
    | none => (.error (), log)
    | some xml =>
      (.ok ((findVersionTags xml).map (fun v => String.mk (pyStrip v))), log)

def ARTIFACT_NAMES : List String :=
  ["javafx-base", "javafx-graphics", "javafx-controls", "javafx-media"]

/-- `JFX_SUPPORTED_JDK` (javafx.py:27-31) with its keys listed in sorted
order, exactly as `sorted(JFX_SUPPORTED_JDK)` iterates them. -/
def JFX_SUPPORTED_JDK : List (Nat × Nat) := [(0, 17), (23, 21), (25, 99999)]

/-- `_get_major` (javafx.py:48-52): `re.match(r"(\d+)", version)` takes the
maximal leading digit run; `none` models the raised `ValueError`. -/
def _get_major (version : String) : Option Nat :=
  digitsToNat (version.data.takeWhile (fun ch => ch.isDigit))

/-- `_required_java_version` (javafx.py:55-61); `none` models the propagated
`ValueError` from `_get_major`. -/
def _required_java_version (version : String) : Option Nat :=
  match _get_major version with
  | none => none
  | some major =>
    some (JFX_SUPPORTED_JDK.foldl
      (fun applicable kv => if kv.1 ≤ major then kv.2 else applicable) 17)

/-- The jar URL of one artifact, from `_artifact_urls` (javafx.py:110-113). -/
def artifactJarUrl (name version classifier : String) : String :=
  "https://repo1.maven.org/maven2/org/openjfx/" ++ name ++ "/" ++ version ++ "/" ++
    name ++ "-" ++ version ++ "-" ++ classifier ++ ".jar"

/-- The sibling digest URL (`base + ".sha1"`). -/
def artifactShaUrl (name version classifier : String) : String :=
  artifactJarUrl name version classifier ++ ".sha1"

/-- The loop body of `_artifacts_exist` (javafx.py:121-129): each probe
downloads the `.sha1` file, decodes and strips it (all of `HTTPError`,
`URLError`, `TimeoutError`, `ValueError`, `UnicodeDecodeError` give `False`),
and requires at least 40 characters. -/
def artifactsExistAux (e : Env) (version classifier : String) :
    List String → Log → Bool × Log
  | [], log => (true, log)
  | name :: rest, log =>
    let sha_url := artifactShaUrl name version classifier
    let log2 := log ++ [(DlKind.sha, sha_url)]
    match e.net sha_url with
    | none => (false, log2)
    | some bytes =>
      match decodeStrip bytes with
      | none => (false, log2)
      | some digest =>
        if digest.length < 40 then (false, log2)
        else artifactsExistAux e version classifier rest log2

def _artifacts_exist (e : Env) (version classifier : String) (log : Log) : Bool × Log :=
  artifactsExistAux e version classifier ARTIFACT_NAMES log

/-- The candidate scan of `detect_latest_remote_version` (javafx.py:94-104):
the caller passes the reversed version list; a candidate whose major version
does not parse (`ValueError`) is skipped, as is one that needs a newer Java
or whose remote artifacts cannot be confirmed. -/
def pickVersion (e : Env) (classifier : String) (java_version : Int) :
    List String → Log → Option String × Log
  | [], log => (none, log)
  | v :: rest, log =>
    match _required_java_version v with
    | none => pickVersion e classifier java_version rest log
    | some req =>
      if (req : Int) > java_version then pickVersion e classifier java_version rest log
      else
        match _artifacts_exist e v classifier log with
        | (true, log2) => (some v, log2)
        | (false, log2) => pickVersion e classifier java_version rest log2

/-- `detect_latest_remote_version` (javafx.py:83-107). -/
def detect_latest_remote_version (e : Env) (java_version : Int) :
    Except Unit (Option String × Log) :=
  match e.classifier with
  | none => .ok (none, [])
  | some classifier =>
    match _iter_versions_from_metadata e with
    | (.error err, _) => .error err
    | (.ok versions, log) =>
      if versions = [] then .ok (none, log)
      else .ok (pickVersion e classifier java_version versions.reverse log)

/-- The local store: whether the dependencies directory exists, and its files
as an association list from filename to byte content.  (A real directory
imposes no file order; the model fixes one.  Python's `glob` order is itself
unspecified.) -/
structure FS where
  dirExists : Bool
  files : List (String × List Nat)
deriving DecidableEq, Repr

/-- Association-list lookup, first match. -/
def lookupL (k : String) : List (String × List Nat) → Option (List Nat)
  | [] => none
  | p :: rest => if p.1 = k then some p.2 else lookupL k rest

/-- Reading a file (the store never holds two files of one name). -/
def FS.lookup (fs : FS) (k : String) : Option (List Nat) := lookupL k fs.files

/-- Drop every entry of a given name. -/
def removeKeyL (k : String) : List (String × List Nat) → List (String × List Nat)
  | [] => []
  | p :: rest => if p.1 = k then removeKeyL k rest else p :: removeKeyL k rest

/-- Writing a file (create or overwrite). -/
def FS.write (fs : FS) (k : String) (v : List Nat) : FS :=
  { dirExists := fs.dirExists, files := (k, v) :: removeKeyL k fs.files }

/-- `Path.unlink` / the removal half of `os.replace`. -/
def FS.remove (fs : FS) (k : String) : FS :=
  { dirExists := fs.dirExists, files := removeKeyL k fs.files }

/-- `_ensure_directory` (javafx.py:156-157): `mkdir(parents=True, exist_ok=True)`. -/
def ensureDirectory (fs : FS) : FS := { dirExists := true, files := fs.files }

/-- First-occurrence deduplication (directory listings list each name once). -/
def dedupFirstAux : List String → List String → List String
  | [], _ => []
  | x :: xs, seen =>
    if x ∈ seen then dedupFirstAux xs seen else x :: dedupFirstAux xs (x :: seen)

/-- The distinct filenames of the store, in listing order. -/
def FS.names (fs : FS) : List String := dedupFirstAux (fs.files.map Prod.fst) []

/-- `directory.glob("javafx-*-*.jar")` applied to one filename: the name must
start with `javafx-`, end with `.jar`, and contain a further `-` before the
final `.jar`. -/
def globMatch (name : String) : Bool :=
  startsWithL "javafx-".data name.data &&
    startsWithL ".jar".data.reverse name.data.reverse &&
    ((name.data.drop 7).take ((name.data.drop 7).length - 4)).contains '-'

/-- One anchored attempt of the cached-file pattern
`javafx-[^-]+-([^-]+)-<classifier>\.jar$` (javafx.py:141) at the current
position: literal `javafx-`, a nonempty dash-free run, `-`, the captured
nonempty dash-free run, then exactly `-` ++ classifier ++ `.jar` to the end
of the name. -/
def cacheMatchAt (cls : List Char) (l : List Char) : Option (List Char) :=
  if startsWithL "javafx-".data l then
    let rest := l.drop 7
    let a := rest.takeWhile (fun ch => ch ≠ '-')
    if a = [] then none
    else
      match rest.dropWhile (fun ch => ch ≠ '-') with
      | [] => none
      | _ :: rest2 =>
        let v := rest2.takeWhile (fun ch => ch ≠ '-')
        if v = [] then none
        else
          let rest3 := rest2.dropWhile (fun ch => ch ≠ '-')
          if rest3 = '-' :: (cls ++ ".jar".data) then some v else none
  else none

/-- `re.search` of that pattern: try every start position from the left
(Python returns the leftmost match). -/
def cacheSearch (cls : List Char) : List Char → Option (List Char)
  | [] => none
  | c :: rest =>
    match cacheMatchAt cls (c :: rest) with
    | some v => some v
    | none => cacheSearch cls rest

/-- The version captured from a cache filename by `detect_cached_version`'s
pattern (javafx.py:141-146), if any. -/
def cacheVersionOf (classifier name : String) : Option String :=
  match cacheSearch classifier.data name.data with
  | some v => some (String.mk v)
  | none => none

/-- One `candidates[version] = candidates.get(version, 0) + 1` step of the
insertion-ordered dict. -/
def bump (v : String) : List (String × Nat) → List (String × Nat)
  | [] => [(v, 1)]
  | (w, n) :: rest => if w = v then (w, n + 1) :: rest else (w, n) :: bump v rest

/-- The `candidates` dict after the scan loop (javafx.py:140-147). -/
def tally (caps : List String) : List (String × Nat) :=
  caps.foldl (fun acc v => bump v acc) []

/-- `valid_versions` (javafx.py:149): versions whose artifact count reaches
the number of required artifact kinds. -/
def completeVersions (caps : List String) : List String :=
  (tally caps).filterMap (fun p => if ARTIFACT_NAMES.length ≤ p.2 then some p.1 else none)

/-- The version captures of the scan over `glob("javafx-*-*.jar")`. -/
def cacheCaps (classifier : String) (names : List String) : List String :=
  (names.filter globMatch).filterMap (cacheVersionOf classifier)

/-- `max(valid_versions, key=_version_key)` (javafx.py:153): Python `max`
keeps the first maximal element; a key that raises `ValueError` aborts. -/
def maxByKeyAux (best : String) (bk : VKey) : List String → Except Unit String
  | [] => .ok best
  | v :: rest =>
    match _version_key v with
    | none => .error ()
    | some k =>
      if keyCmp bk k = .lt then maxByKeyAux v k rest else maxByKeyAux best bk rest

def maxByKey (v : String) (rest : List String) : Except Unit String :=
  match _version_key v with
  | none => .error ()
  | some k => maxByKeyAux v k rest

/-- `detect_cached_version` (javafx.py:132-153).  `Except.error` models the
`ValueError` that `max(..., key=_version_key)` raises on a captured version
whose numeric part does not parse. -/
def detect_cached_version (e : Env) (fs : FS) : Except Unit (Option String) :=
  match e.classifier with
  | none => .ok none
  | some classifier =>
    if fs.dirExists = false then .ok none
    else
      match completeVersions (cacheCaps classifier fs.names) with
      | [] => .ok none
      | v :: rest =>
        match maxByKey v rest with
        | .ok best => .ok (some best)
        | .error err => .error err

/-- Insertion into a sorted list by Python string comparison (paths within a
single directory compare by filename). -/
def insertSorted (x : String) : List String → List String
  | [] => [x]
  | y :: ys => if strCmp x y = .gt then y :: insertSorted x ys else x :: y :: ys

/-- `sorted(...)` for `_cache_entries`. -/
def sortStrings (l : List String) : List String := l.foldr insertSorted []

/-- `_cache_entries` (javafx.py:160-163). -/
def _cache_entries (fs : FS) : List String :=
  if fs.dirExists = false then [] else sortStrings (fs.names.filter globMatch)

/-- `_cache_size` (javafx.py:179-180). -/
def _cache_size (fs : FS) : Nat :=
  ((_cache_entries fs).map (fun name => ((fs.lookup name).getD []).length)).sum

/-- Python substring containment `sub in s`. -/
def containsSub (sub : List Char) : List Char → Bool
  | [] => startsWithL sub []
  | c :: rest => startsWithL sub (c :: rest) || containsSub sub rest

/-- One deletion step of `_clear_cache`'s loop (javafx.py:170-176): skip an
entry when `keep_latest and latest and latest in entry.name` (Python
truthiness: `latest` must be a nonempty string); otherwise `unlink`, where an
`OSError` is caught and the entry stays. -/
def clearStep (e : Env) (keep_latest : Bool) (latest : Option String)
    (acc : FS) (entry : String) : FS :=
  if keep_latest && (match latest with
      | some l => decide (l ≠ "") && containsSub l.data entry.data
      | none => false) then acc
  else if e.unlinkFail entry then acc
  else acc.remove entry

/-- `_clear_cache` (javafx.py:166-176).  The entry list is materialized
before any deletion (`sorted(...)`), and `latest` is computed before the
loop when `keep_latest` is set. -/
def _clear_cache (e : Env) (fs : FS) (keep_latest : Bool) : Except Unit FS :=
  if fs.dirExists = false then .ok fs
  else
    match (if keep_latest then detect_cached_version e fs else .ok none) with
    | .error err => .error err
    | .ok latest => .ok ((_cache_entries fs).foldl (clearStep e keep_latest latest) fs)

/-- `jar_url.rsplit("/", 1)[-1]` (javafx.py:221): the part after the last
slash. -/
def lastSegment (l : List Char) : List Char :=
  (l.reverse.takeWhile (fun ch => ch ≠ '/')).reverse

/-- The final target filename of one artifact. -/
def jarFileName (name version classifier : String) : String :=
  String.mk (lastSegment (artifactJarUrl name version classifier).data)

/-- `target.with_suffix(target.suffix + ".tmp")` (javafx.py:223): the jar
filename always ends in `.jar` (its final suffix), so this appends `.tmp`. -/
def tempName (target : String) : String := target ++ ".tmp"

/-- `_validate_cached_file` (javafx.py:257-266): download and decode the
digest (transport/decode failure gives `False`), re-hash the local bytes
(an unreadable file gives `False`), compare. -/
def _validate_cached_file (e : Env) (fs : FS) (target sha_url : String) (log : Log) :
    Bool × Log :=
  let log2 := log ++ [(DlKind.sha, sha_url)]
  match e.net sha_url with
  | none => (false, log2)
  | some bytes =>
    match decodeStrip bytes with
    | none => (false, log2)
    | some expected =>
      match fs.lookup target with
      | none => (false, log2)
      | some content => (decide (expected = e.sha1hex content), log2)

/-- One iteration of the download retry loop (javafx.py:230-249) at retry
index `i`: download and decode the digest, download the binary, compare the
abstract SHA-1, then write the staging file and atomically rename it over the
target.  Every caught exception (`HTTPError`/`URLError`/`TimeoutError`/
`UnicodeDecodeError` on the downloads, a checksum mismatch, an `OSError` at
either store step) makes this attempt fail. -/
def oneAttempt (e : Env) (jar_url sha_url target temp : String) (i : Nat)
    (fs : FS) (log : Log) : Bool × FS × Log :=
  let log1 := log ++ [(DlKind.sha, sha_url)]
  match e.net sha_url with
  | none => (false, fs, log1)
  | some shaBytes =>
    match decodeStrip shaBytes with
    | none => (false, fs, log1)
    | some sha1 =>
      let log2 := log1 ++ [(DlKind.jar, jar_url)]
      match e.net jar_url with
      | none => (false, fs, log2)
      | some data =>
        if e.sha1hex data = sha1 then
          if e.tmpWriteFail target i then (false, fs, log2)
          else
            if e.replaceFail target i then (false, fs.write temp data, log2)
            else (true, ((fs.write temp data).remove temp).write target data, log2)
        else (false, fs, log2)

/-- The `for _ in range(5)` retry loop (javafx.py:230): `i` is the current
attempt index, `rem` the attempts left; a failed attempt `continue`s. -/
def fetchAttempts (e : Env) (jar_url sha_url target temp : String) :
    Nat → Nat → FS → Log → Bool × FS × Log
  | _, 0, fs, log => (false, fs, log)
  | i, rem + 1, fs, log =>
    match oneAttempt e jar_url sha_url target temp i fs log with
    | (true, fs2, log2) => (true, fs2, log2)
    | (false, fs2, log2) => fetchAttempts e jar_url sha_url target temp (i + 1) rem fs2 log2

/-- One artifact of the fetch loop body (javafx.py:220-252): re-validate an
existing target unless `force` (a successful validation is the `continue` at
javafx.py:227), otherwise run up to five download attempts. -/
def fetchOne (e : Env) (force : Bool) (classifier desired name : String)
    (fs : FS) (log : Log) : Bool × FS × Log :=
  let jar_url := artifactJarUrl name desired classifier
  let sha_url := artifactShaUrl name desired classifier
  let target := jarFileName name desired classifier
  let temp := tempName target
  if force = false ∧ (fs.lookup target).isSome then
    match _validate_cached_file e fs target sha_url log with
    | (true, log2) => (true, fs, log2)
    | (false, log2) => fetchAttempts e jar_url sha_url target temp 0 5 fs log2
  else fetchAttempts e jar_url sha_url target temp 0 5 fs log

/-- The whole fetch loop with its early exit (javafx.py:250-252): a failed
artifact stops the loop at once. -/
def fetchAll (e : Env) (force : Bool) (classifier desired : String) :
    List String → FS → Log → Bool × FS × Log
  | [], fs, log => (true, fs, log)
  | name :: rest, fs, log =>
    match fetchOne e force classifier desired name fs log with
    | (true, fs2, log2) => fetchAll e force classifier desired rest fs2 log2
    | (false, fs2, log2) => (false, fs2, log2)

/-- The eviction trigger and pass of `update_javafx` (javafx.py:202-203). -/
def updAfterEvict (e : Env) (fs : FS) (clear keep_latest : Bool)
    (max_cache_count max_cache_size : Int) : Except Unit FS :=
  if clear ∨ ((_cache_entries fs).length : Int) > max_cache_count
      ∨ ((_cache_size fs : Int) > max_cache_size) then
    _clear_cache e fs keep_latest
  else .ok fs

/-- The desired-release computation of `update_javafx` (javafx.py:206-210):
the explicit target version verbatim when given, otherwise the newest
compatible remote release for `java_version` (defaulting to 21). -/
def updDesired (e : Env) (target_version : Option String) (java_version : Option Int) :
    Except Unit (Option String × Log) :=
  match target_version with
  | some t => .ok (some t, [])
  | none => detect_latest_remote_version e (java_version.getD 21)

/-- The `not force and current and _version_key(current) >= _version_key(desired)`
guard (javafx.py:215): `current` is truthy when it is a nonempty string; both
keys are computed and may raise `ValueError` (`Except.error`). -/
def skipCheck (force : Bool) (current : Option String) (desired : String) :
    Except Unit Bool :=
  if force then .ok false
  else
    match current with
    | none => .ok false
    | some c =>
      if c = "" then .ok false
      else
        match _version_key c with
        | none => .error ()
        | some kc =>
          match _version_key desired with
          | none => .error ()
          | some kd =>
            .ok (match keyCmp kc kd with
              | .lt => false
              | _ => true)

/-- `update_javafx` (javafx.py:183-254), returning the release identifier,
the final store, and the download log; `Except.error` models an uncaught
exception escaping the call. -/
def update_javafx (e : Env) (fs : FS) (target_version : Option String)
    (java_version : Option Int) (force clear keep_latest : Bool)
    (max_cache_count max_cache_size : Int) :
    Except Unit (Option String × FS × Log) :=
  match e.classifier with
  | none => .ok (none, fs, [])
  | some classifier =>
    match updAfterEvict e fs clear keep_latest max_cache_count max_cache_size with
    | .error err => .error err
    | .ok fs1 =>
      match detect_cached_version e fs1 with
      | .error err => .error err
      | .ok current =>
        match updDesired e target_version java_version with
        | .error err => .error err
        | .ok (none, log) => .ok (current, fs1, log)
        | .ok (some desired, log) =>
          match skipCheck force current desired with
          | .error err => .error err
          | .ok true => .ok (current, fs1, log)
          | .ok false =>
            match fetchAll e force classifier desired ARTIFACT_NAMES
                (ensureDirectory fs1) log with
            | (true, fs2, log2) => .ok (some desired, fs2, log2)
            | (false, fs2, log2) => .ok (current, fs2, log2)

def envC6 : Env :=
  { uname_sysname := "linux"
    uname_machine := "x86_64"
    net := fun _ => none
    sha1hex := fun _ => ""
    tmpWriteFail := fun _ _ => false
    replaceFail := fun _ _ => false
    unlinkFail := fun _ => false }

def envC7 : Env :=
  { uname_sysname := "linux"
    uname_machine := "x86_64"
    net := fun u => if u = MAVEN_METADATA_URL then some [255] else none
    sha1hex := fun _ => ""
    tmpWriteFail := fun _ _ => false
    replaceFail := fun _ _ => false
    unlinkFail := fun _ => false }

def envC7T : Env :=
  { uname_sysname := "linux"
    uname_machine := "x86_64"
    net := fun _ => none
    sha1hex := fun _ => ""
    tmpWriteFail := fun _ _ => false
    replaceFail := fun _ _ => false
    unlinkFail := fun _ => false }

def envC10 : Env :=
  { uname_sysname := "SunOS"
    uname_machine := "sparc64"
    net := fun _ => none
    sha1hex := fun _ => ""
    tmpWriteFail := fun _ _ => false
    replaceFail := fun _ _ => false
    unlinkFail := fun _ => false }

def fsC10 : FS := ⟨true, [("javafx-base-21-linux.jar", [1, 2, 3])]⟩

def envC1 : Env :=
  { uname_sysname := "Linux"
    uname_machine := "x86_64"
    net := fun _ => none
    sha1hex := fun _ => ""
    tmpWriteFail := fun _ _ => false
    replaceFail := fun _ _ => false
    unlinkFail := fun _ => false }

def shaBodyC4 : List Nat := "da39a3ee5e6b4b0d3255bfef95601890afd80709".data.map Char.toNat

def envC4 : Env :=
  { uname_sysname := "Linux"
    uname_machine := "x86_64"
    net := fun u =>
      if startsWithL ".sha1".data.reverse u.data.reverse then some shaBodyC4 else some [7]
    sha1hex := fun _ => "da39a3ee5e6b4b0d3255bfef95601890afd80709"
    tmpWriteFail := fun t i => decide (t = "javafx-base-21-linux.jar") && decide (i = 0)
    replaceFail := fun _ _ => false
    unlinkFail := fun _ => false }

def fsC4r : FS :=
  ⟨true, [("javafx-media-21-linux.jar", [7]), ("javafx-controls-21-linux.jar", [7]),
          ("javafx-graphics-21-linux.jar", [7]), ("javafx-base-21-linux.jar", [7])]⟩

def logC4r : Log :=
  [(DlKind.sha, artifactShaUrl "javafx-base" "21" "linux"),
   (DlKind.jar, artifactJarUrl "javafx-base" "21" "linux"),
   (DlKind.sha, artifactShaUrl "javafx-base" "21" "linux"),
   (DlKind.jar, artifactJarUrl "javafx-base" "21" "linux"),
   (DlKind.sha, artifactShaUrl "javafx-graphics" "21" "linux"),
   (DlKind.jar, artifactJarUrl "javafx-graphics" "21" "linux"),
   (DlKind.sha, artifactShaUrl "javafx-controls" "21" "linux"),
   (DlKind.jar, artifactJarUrl "javafx-controls" "21" "linux"),
   (DlKind.sha, artifactShaUrl "javafx-media" "21" "linux"),
   (DlKind.jar, artifactJarUrl "javafx-media" "21" "linux")]

def shaBodyC3 : List Nat := "da39a3ee5e6b4b0d3255bfef95601890afd80709".data.map Char.toNat

def envC3 : Env :=
  { uname_sysname := "Linux"
    uname_machine := "x86_64"
    net := fun u =>
      if startsWithL ".sha1".data.reverse u.data.reverse then some shaBodyC3 else some [7]
    sha1hex := fun _ => "da39a3ee5e6b4b0d3255bfef95601890afd80709"
    tmpWriteFail := fun _ _ => false
    replaceFail := fun _ _ => false
    unlinkFail := fun _ => false }

def fsC3r : FS :=
  ⟨true, [("javafx-media-23-ea-linux.jar", [7]), ("javafx-controls-23-ea-linux.jar", [7]),
          ("javafx-graphics-23-ea-linux.jar", [7]), ("javafx-base-23-ea-linux.jar", [7])]⟩

def logC3r : Log :=
  [(DlKind.sha, artifactShaUrl "javafx-base" "23-ea" "linux"),
   (DlKind.jar, artifactJarUrl "javafx-base" "23-ea" "linux"),
   (DlKind.sha, artifactShaUrl "javafx-graphics" "23-ea" "linux"),
   (DlKind.jar, artifactJarUrl "javafx-graphics" "23-ea" "linux"),
   (DlKind.sha, artifactShaUrl "javafx-controls" "23-ea" "linux"),
   (DlKind.jar, artifactJarUrl "javafx-controls" "23-ea" "linux"),
   (DlKind.sha, artifactShaUrl "javafx-media" "23-ea" "linux"),
   (DlKind.jar, artifactJarUrl "javafx-media" "23-ea" "linux")]

/-- The downloaded binary at this URL verifies against its remote digest:
the bytes are the remote binary and the abstract SHA-1 of the bytes equals
the decoded, stripped digest body. -/
def verifiedFor (e : Env) (jar_url sha_url : String) (bytes : List Nat) : Prop :=
  e.net jar_url = some bytes ∧
    ∃ sb s, e.net sha_url = some sb ∧ decodeStrip sb = some s ∧ e.sha1hex bytes = s

def envC2 : Env :=
  { uname_sysname := "Linux"
    uname_machine := "x86_64"
    net := fun u => if u = "u.sha1" then some ("aaaa".data.map Char.toNat) else some [9]
    sha1hex := fun _ => "bb"
    tmpWriteFail := fun _ _ => false
    replaceFail := fun _ _ => false
    unlinkFail := fun _ => false }

def envC2b : Env :=
  { uname_sysname := "Plan9"
    uname_machine := "mips"
    net := fun _ => none
    sha1hex := fun _ => ""
    tmpWriteFail := fun _ _ => false
    replaceFail := fun _ _ => false
    unlinkFail := fun _ => false }

def fsC2b : FS := ⟨true, [("a", [1])]⟩

def envC9 : Env :=
  { uname_sysname := "Linux"
    uname_machine := "x86_64"
    net := fun _ => none
    sha1hex := fun _ => ""
    tmpWriteFail := fun _ _ => false
    replaceFail := fun _ _ => false
    unlinkFail := fun _ => false }

def fsC9a : FS := ⟨true, [("javafx-base-21-linux.jar", [1]), ("notes.txt", [2])]⟩

def fsC9b : FS :=
  ⟨true, [("javafx-base-21-linux.jar", [1]), ("javafx-graphics-21-linux.jar", [1]),
          ("javafx-controls-21-linux.jar", [1]), ("javafx-media-21-linux.jar", [1])]⟩

/-- The count stored for a version in the insertion-ordered `candidates`
dict (0 when absent), used to reason about `tally`. -/
def lookupCount : List (String × Nat) → String → Nat
  | [], _ => 0
  | (w, n) :: rest, v => if w = v then n else lookupCount rest v

def shaBodyW : List Nat := "da39a3ee5e6b4b0d3255bfef95601890afd80709".data.map Char.toNat

def envC3w : Env :=
  { uname_sysname := "Linux"
    uname_machine := "x86_64"
    net := fun u =>
      if startsWithL ".sha1".data.reverse u.data.reverse then some shaBodyW else some [7]
    sha1hex := fun _ => "da39a3ee5e6b4b0d3255bfef95601890afd80709"
    tmpWriteFail := fun _ _ => false
    replaceFail := fun _ _ => false
    unlinkFail := fun _ => false }

def fsC3w : FS :=
  ⟨true, [("javafx-media-21-linux.jar", [7]), ("javafx-controls-21-linux.jar", [7]),
          ("javafx-graphics-21-linux.jar", [7]), ("javafx-base-21-linux.jar", [7])]⟩

def logC3w : Log :=
  [(DlKind.sha, artifactShaUrl "javafx-base" "21" "linux"),
   (DlKind.jar, artifactJarUrl "javafx-base" "21" "linux"),
   (DlKind.sha, artifactShaUrl "javafx-graphics" "21" "linux"),
   (DlKind.jar, artifactJarUrl "javafx-graphics" "21" "linux"),
   (DlKind.sha, artifactShaUrl "javafx-controls" "21" "linux"),
   (DlKind.jar, artifactJarUrl "javafx-controls" "21" "linux"),
   (DlKind.sha, artifactShaUrl "javafx-media" "21" "linux"),
   (DlKind.jar, artifactJarUrl "javafx-media" "21" "linux")]

def envC8c : Env :=
  { uname_sysname := "Linux"
    uname_machine := "x86_64"
    net := fun u =>
      if startsWithL ".sha1".data.reverse u.data.reverse then some shaBodyW else some [7]
    sha1hex := fun _ => "da39a3ee5e6b4b0d3255bfef95601890afd80709"
    tmpWriteFail := fun _ _ => false
    replaceFail := fun _ _ => false
    unlinkFail := fun _ => false }

def fsC8c : FS :=
  ⟨true, [("javafx-media-21-linux.jar", [7]), ("javafx-controls-21-linux.jar", [7]),
          ("javafx-graphics-21-linux.jar", [7]), ("javafx-base-21-linux.jar", [7])]⟩

def logC8c : Log :=
  [(DlKind.sha, artifactShaUrl "javafx-base" "21" "linux"),
   (DlKind.jar, artifactJarUrl "javafx-base" "21" "linux"),
   (DlKind.sha, artifactShaUrl "javafx-graphics" "21" "linux"),
   (DlKind.jar, artifactJarUrl "javafx-graphics" "21" "linux"),
   (DlKind.sha, artifactShaUrl "javafx-controls" "21" "linux"),
   (DlKind.jar, artifactJarUrl "javafx-controls" "21" "linux"),
   (DlKind.sha, artifactShaUrl "javafx-media" "21" "linux"),
   (DlKind.jar, artifactJarUrl "javafx-media" "21" "linux")]

def envC8w : Env :=
  { uname_sysname := "Linux"
    uname_machine := "x86_64"
    net := fun u =>
      if startsWithL ".sha1".data.reverse u.data.reverse then some shaBodyW else some [7]
    sha1hex := fun _ => "da39a3ee5e6b4b0d3255bfef95601890afd80709"
    tmpWriteFail := fun _ _ => false
    replaceFail := fun _ _ => false
    unlinkFail := fun _ => false }

def fsC8w : FS :=
  ⟨true, [("javafx-media-21-linux.jar", [7]), ("javafx-controls-21-linux.jar", [7]),
          ("javafx-graphics-21-linux.jar", [7]), ("javafx-base-21-linux.jar", [7])]⟩

def logC8w : Log :=
  [(DlKind.sha, artifactShaUrl "javafx-base" "21" "linux"),
   (DlKind.jar, artifactJarUrl "javafx-base" "21" "linux"),
   (DlKind.sha, artifactShaUrl "javafx-graphics" "21" "linux"),
   (DlKind.jar, artifactJarUrl "javafx-graphics" "21" "linux"),
   (DlKind.sha, artifactShaUrl "javafx-controls" "21" "linux"),
   (DlKind.jar, artifactJarUrl "javafx-controls" "21" "linux"),
   (DlKind.sha, artifactShaUrl "javafx-media" "21" "linux"),
   (DlKind.jar, artifactJarUrl "javafx-media" "21" "linux")]

/-! ### Theorems -/

theorem lt_then (x : Ordering) : Ordering.then .lt x = .lt := rfl

theorem eq_then (x : Ordering) : Ordering.then .eq x = x := rfl

theorem gt_then (x : Ordering) : Ordering.then .gt x = .gt := rfl

theorem lexCmp_cons_cons (c : α → α → Ordering) (a b : α) (l m : List α) :
    lexCmp c (a :: l) (b :: m) = (c a b).then (lexCmp c l m) := rfl

theorem natCmp_eq_iff (a b : Nat) : natCmp a b = .eq ↔ a = b := by
  unfold natCmp
  split
  · constructor
    · intro h; cases h
    · intro h; omega
  · split
    · constructor
      · intro h; cases h
      · intro h; omega
    · constructor
      · intro _; omega
      · intro _; rfl

theorem natCmp_lt_trans (a b c : Nat) :
    natCmp a b = .lt → natCmp b c = .lt → natCmp a c = .lt := by
  unfold natCmp
  intro h1 h2
  split at h1
  · split at h2
    · split
      · rfl
      · omega
    · split at h2
      · cases h2
      · cases h2
  · split at h1
    · cases h1
    · cases h1

theorem natCmp_swap (a b : Nat) : natCmp b a = (natCmp a b).swap := by
  unfold natCmp
  rcases Nat.lt_trichotomy a b with h | h | h
  · rw [if_pos h, if_neg (by omega), if_pos (by omega)]
    rfl
  · rw [if_neg (by omega), if_neg (by omega), if_neg (by omega), if_neg (by omega)]
    rfl
  · rw [if_pos h, if_neg (by omega), if_pos (by omega)]
    rfl

theorem charCmp_eq_iff (a b : Char) : charCmp a b = .eq ↔ a = b := by
  unfold charCmp
  rw [natCmp_eq_iff]
  constructor
  · intro h
    exact Char.ext (UInt32.ext h)
  · intro h; rw [h]

theorem charCmp_lt_trans (a b c : Char) :
    charCmp a b = .lt → charCmp b c = .lt → charCmp a c = .lt :=
  natCmp_lt_trans _ _ _

theorem charCmp_swap (a b : Char) : charCmp b a = (charCmp a b).swap :=
  natCmp_swap _ _

theorem lexCmp_eq_iff (c : α → α → Ordering)
    (hc : ∀ a b, c a b = .eq ↔ a = b) :
    ∀ l m, lexCmp c l m = .eq ↔ l = m := by
  intro l
  induction l with
  | nil =>
    intro m
    cases m with
    | nil => simp [lexCmp]
    | cons b bs => simp [lexCmp]
  | cons a l ih =>
    intro m
    cases m with
    | nil => simp [lexCmp]
    | cons b bs =>
      rw [lexCmp_cons_cons]
      cases hab : c a b
      · rw [lt_then]
        constructor
        · intro h; cases h
        · intro h
          rw [List.cons.injEq] at h
          rw [(hc a b).2 h.1] at hab
          cases hab
      · rw [eq_then, ih bs]
        have hab2 : a = b := (hc a b).1 hab
        subst hab2
        simp
      · rw [gt_then]
        constructor
        · intro h; cases h
        · intro h
          rw [List.cons.injEq] at h
          rw [(hc a b).2 h.1] at hab
          cases hab

theorem lexCmp_swap (c : α → α → Ordering)
    (hc : ∀ a b, c b a = (c a b).swap) :
    ∀ l m, lexCmp c m l = (lexCmp c l m).swap := by
  intro l
  induction l with
  | nil =>
    intro m
    cases m with
    | nil => rfl
    | cons b bs => rfl
  | cons a l ih =>
    intro m
    cases m with
    | nil => rfl
    | cons b bs =>
      rw [lexCmp_cons_cons, lexCmp_cons_cons, hc a b]
      cases hab : c a b
      · rfl
      · rw [Ordering.swap, eq_then, eq_then]
        exact ih bs
      · rfl

theorem lexCmp_lt_trans (c : α → α → Ordering)
    (hceq : ∀ a b, c a b = .eq ↔ a = b)
    (hct : ∀ a b d, c a b = .lt → c b d = .lt → c a d = .lt)
    (hcs : ∀ a b, c b a = (c a b).swap) :
    ∀ l m k, lexCmp c l m = .lt → lexCmp c m k = .lt → lexCmp c l k = .lt := by
  intro l
  induction l with
  | nil =>
    intro m k h1 h2
    cases k with
    | nil =>
      cases m with
      | nil => cases h1
      | cons b bs => cases h2
    | cons d ds => rfl
  | cons a l ih =>
    intro m k h1 h2
    cases m with
    | nil => cases h1
    | cons b bs =>
      cases k with
      | nil => cases h2
      | cons d ds =>
        rw [lexCmp_cons_cons] at h1 h2 ⊢
        cases hab : c a b <;> rw [hab] at h1 <;> cases hbd : c b d <;> rw [hbd] at h2
        · rw [hct a b d hab hbd, lt_then]
        · have hbd2 : b = d := (hceq b d).1 hbd
          subst hbd2
          rw [hab, lt_then]
        · rw [gt_then] at h2
          cases h2
        · have hab2 : a = b := (hceq a b).1 hab
          subst hab2
          rw [hbd, lt_then]
        · have hab2 : a = b := (hceq a b).1 hab
          subst hab2
          have hbd2 : a = d := (hceq a d).1 hbd
          subst hbd2
          rw [(hceq a a).2 rfl, eq_then]
          rw [eq_then] at h1 h2
          exact ih bs ds h1 h2
        · rw [gt_then] at h2
          cases h2
        · rw [gt_then] at h1
          cases h1
        · rw [gt_then] at h1
          cases h1
        · rw [gt_then] at h1
          cases h1

theorem natListCmp_eq_iff (l m : List Nat) : natListCmp l m = .eq ↔ l = m :=
  lexCmp_eq_iff natCmp natCmp_eq_iff l m

theorem natListCmp_lt_trans (l m k : List Nat) :
    natListCmp l m = .lt → natListCmp m k = .lt → natListCmp l k = .lt :=
  lexCmp_lt_trans natCmp natCmp_eq_iff natCmp_lt_trans natCmp_swap l m k

theorem natListCmp_swap (l m : List Nat) : natListCmp m l = (natListCmp l m).swap :=
  lexCmp_swap natCmp natCmp_swap l m

theorem strCmp_eq_iff (a b : String) : strCmp a b = .eq ↔ a = b := by
  unfold strCmp
  rw [lexCmp_eq_iff charCmp charCmp_eq_iff]
  constructor
  · intro h
    cases a
    cases b
    simp only [] at h
    rw [h]
  · intro h; rw [h]

theorem strCmp_lt_trans (a b c : String) :
    strCmp a b = .lt → strCmp b c = .lt → strCmp a c = .lt :=
  lexCmp_lt_trans charCmp charCmp_eq_iff charCmp_lt_trans charCmp_swap _ _ _

theorem strCmp_swap (a b : String) : strCmp b a = (strCmp a b).swap :=
  lexCmp_swap charCmp charCmp_swap _ _

theorem keyCmp_eq_iff (a b : VKey) : keyCmp a b = .eq ↔ a = b := by
  unfold keyCmp
  cases ho : natListCmp a.1 b.1
  · rw [lt_then]
    constructor
    · intro h; cases h
    · intro h
      rw [h, (natListCmp_eq_iff b.1 b.1).2 rfl] at ho
      cases ho
  · rw [eq_then, strCmp_eq_iff]
    have h1 : a.1 = b.1 := (natListCmp_eq_iff a.1 b.1).1 ho
    constructor
    · intro h2
      exact Prod.ext h1 h2
    · intro h; rw [h]
  · rw [gt_then]
    constructor
    · intro h; cases h
    · intro h
      rw [h, (natListCmp_eq_iff b.1 b.1).2 rfl] at ho
      cases ho

theorem keyCmp_lt_trans (a b c : VKey) :
    keyCmp a b = .lt → keyCmp b c = .lt → keyCmp a c = .lt := by
  unfold keyCmp
  intro h1 h2
  cases hab : natListCmp a.1 b.1 <;> rw [hab] at h1 <;>
    cases hbc : natListCmp b.1 c.1 <;> rw [hbc] at h2
  · rw [natListCmp_lt_trans _ _ _ hab hbc, lt_then]
  · rw [← ((natListCmp_eq_iff b.1 c.1).1 hbc), hab, lt_then]
  · rw [gt_then] at h2
    cases h2
  · rw [((natListCmp_eq_iff a.1 b.1).1 hab), hbc, lt_then]
  · have e1 : a.1 = b.1 := (natListCmp_eq_iff a.1 b.1).1 hab
    have e2 : b.1 = c.1 := (natListCmp_eq_iff b.1 c.1).1 hbc
    rw [e1, e2, (natListCmp_eq_iff c.1 c.1).2 rfl, eq_then]
    rw [eq_then] at h1 h2
    exact strCmp_lt_trans _ _ _ h1 h2
  · rw [gt_then] at h2
    cases h2
  · rw [gt_then] at h1
    cases h1
  · rw [gt_then] at h1
    cases h1
  · rw [gt_then] at h1
    cases h1

theorem keyCmp_self (a : VKey) : keyCmp a a = .eq :=
  (keyCmp_eq_iff a a).2 rfl

theorem keyCmp_swap (a b : VKey) : keyCmp b a = (keyCmp a b).swap := by
  unfold keyCmp
  rw [natListCmp_swap, strCmp_swap]
  cases natListCmp a.1 b.1
  · rfl
  · rfl
  · rfl

theorem keyCmp_trichotomy (a b : VKey) :
    keyCmp a b = .lt ∨ a = b ∨ keyCmp b a = .lt := by
  cases ho : keyCmp a b
  · exact Or.inl rfl
  · exact Or.inr (Or.inl ((keyCmp_eq_iff a b).1 ho))
  · refine Or.inr (Or.inr ?_)
    rw [keyCmp_swap, ho]
    rfl

theorem keyCmp_gt_of_lt (a b : VKey) (h : keyCmp a b = .lt) : keyCmp b a = .gt := by
  rw [keyCmp_swap, h]
  rfl

/-- C5: the ordering induced by `_version_key` on release identifiers is a
strict total order on the produced keys (irreflexive, transitive, total),
compares the numeric tuple first and the suffix string second,
orders "21.0.1" above "21.0.0", and orders "23" against "23-ea" by comparing
the empty suffix with "ea". -/
theorem c5_version_key_strict_total_order :
    (∀ a b c : VKey, keyCmp a b = .lt → keyCmp b c = .lt → keyCmp a c = .lt) ∧
    (∀ a : VKey, keyCmp a a ≠ .lt) ∧
    (∀ a b : VKey, keyCmp a b = .lt ∨ a = b ∨ keyCmp b a = .lt) ∧
    (∀ a b : VKey,
      keyCmp a b = if natListCmp a.1 b.1 = .eq then strCmp a.2 b.2 else natListCmp a.1 b.1) ∧
    _version_key "21.0.0" = some ([21, 0, 0], "") ∧
    _version_key "21.0.1" = some ([21, 0, 1], "") ∧
    keyCmp ([21, 0, 0], "") ([21, 0, 1], "") = .lt ∧
    _version_key "23" = some ([23], "") ∧
    _version_key "23-ea" = some ([23], "ea") ∧
    keyCmp ([23], "") ([23], "ea") = strCmp "" "ea" ∧
    strCmp "" "ea" = .lt := by
  refine ⟨keyCmp_lt_trans, ?_, keyCmp_trichotomy, ?_, ?_, ?_, ?_, ?_, ?_, ?_, ?_⟩
  · intro a h
    rw [keyCmp_self a] at h
    cases h
  · intro a b
    unfold keyCmp
    cases ho : natListCmp a.1 b.1
    · rw [lt_then, if_neg (by intro hx; cases hx)]
    · rw [eq_then, if_pos rfl]
    · rw [gt_then, if_neg (by intro hx; cases hx)]
  · decide
  · decide
  · decide
  · decide
  · decide
  · decide
  · decide

/-- Witness for C5: transitivity applied at concrete keys. -/
theorem c5_version_key_strict_total_order_witness :
    keyCmp ([21], "a") ([23], "") = .lt :=
  c5_version_key_strict_total_order.1 ([21], "a") ([22], "zz") ([23], "")
    (by decide) (by decide)

theorem pickVersion_major (e : Env) (cls : String) (jv : Int) :
    ∀ l log w log2, pickVersion e cls jv l log = (some w, log2) →
      (_get_major w).isSome := by
  intro l
  induction l with
  | nil =>
    intro log w log2 h
    cases h
  | cons v rest ih =>
    intro log w log2 h
    rw [pickVersion] at h
    cases hr : _required_java_version v <;> rw [hr] at h
    · exact ih _ _ _ h
    · rename_i req
      have h3 : (if (req : Int) > jv then pickVersion e cls jv rest log
          else match _artifacts_exist e v cls log with
            | (true, log2) => (some v, log2)
            | (false, log2) => pickVersion e cls jv rest log2) = (some w, log2) := h
      by_cases hgt : (req : Int) > jv
      · rw [if_pos hgt] at h3
        exact ih _ _ _ h3
      · rw [if_neg hgt] at h3
        rcases hx : _artifacts_exist e v cls log with ⟨okFlag, logx⟩
        rw [hx] at h3
        cases okFlag
        · exact ih _ _ _ h3
        · have h4 : ((some v, logx) : Option String × Log) = (some w, log2) := h3
          injection h4 with h1 _
          injection h1 with h1
          subst h1
          unfold _required_java_version at hr
          cases hm : _get_major v <;> rw [hm] at hr
          · cases hr
          · simp

/-- C6: `_required_java_version` returns, for a release whose major version
parses, the value of the table rule with the greatest lower bound that is at
most the major (17 below 23, 21 for 23-24, 99999 from 25 on); and a release
whose major version does not parse is skipped by the remote-resolution scan
rather than ever being selected or crashing it. -/
theorem c6_required_java_version :
    (∀ v m, _get_major v = some m →
      _required_java_version v =
        some (if 25 ≤ m then 99999 else if 23 ≤ m then 21 else 17)) ∧
    (∀ e cls jv v rest log, _get_major v = none →
      pickVersion e cls jv (v :: rest) log = pickVersion e cls jv rest log) ∧
    (∀ e jv w log, detect_latest_remote_version e jv = .ok (some w, log) →
      (_get_major w).isSome) := by
  refine ⟨?_, ?_, ?_⟩
  · intro v m h
    unfold _required_java_version
    rw [h]
    simp only [JFX_SUPPORTED_JDK, List.foldl]
    by_cases h25 : 25 ≤ m
    · rw [if_pos h25, if_pos h25]
    · rw [if_neg h25, if_neg h25]
      by_cases h23 : 23 ≤ m
      · rw [if_pos h23, if_pos h23]
      · rw [if_neg h23, if_neg h23, if_pos (Nat.zero_le m)]
  · intro e cls jv v rest log h
    have hr : _required_java_version v = none := by
      unfold _required_java_version
      rw [h]
    rw [pickVersion, hr]
  · intro e jv w log h
    unfold detect_latest_remote_version at h
    cases hc : e.classifier <;> rw [hc] at h
    · simp at h
    · rename_i cls0
      rcases hm : _iter_versions_from_metadata e with ⟨vres, vlog⟩
      rw [hm] at h
      cases vres
      · cases h
      · rename_i versions
        have h5 : (if versions = [] then Except.ok (ε := Unit) ((none : Option String), vlog)
            else Except.ok (pickVersion e cls0 jv versions.reverse vlog)) =
            Except.ok (some w, log) := h
        by_cases hv : versions = []
        · rw [if_pos hv] at h5
          simp at h5
        · rw [if_neg hv] at h5
          injection h5 with h1
          exact pickVersion_major e cls0 jv versions.reverse vlog w log h1

/-- Witness for C6 at concrete inputs: the rule table applied to "21.0.1",
and the scan skipping the unparsable "ea". -/
theorem c6_required_java_version_witness :
    _required_java_version "21.0.1" =
      some (if 25 ≤ 21 then 99999 else if 23 ≤ 21 then 21 else 17) ∧
    pickVersion envC6 "linux" 21 ["ea"] [] = pickVersion envC6 "linux" 21 [] [] :=
  ⟨c6_required_java_version.1 "21.0.1" 21 (by decide),
   c6_required_java_version.2.1 envC6 "linux" 21 "ea" [] [] (by decide)⟩

/-- Counterexample for C7: a response body that is not decodable text
(the single byte 0xFF) does NOT yield the empty sequence — the
`UnicodeDecodeError` propagates out of `_iter_versions_from_metadata`
(modelled as `Except.error`), contradicting the claim that any parse failure
is treated the same as a transport error. -/
theorem c7_counterexample :
    (_iter_versions_from_metadata envC7).1 = Except.error () ∧
    (_iter_versions_from_metadata envC7).1 ≠ Except.ok [] := by
  constructor
  · rfl
  · intro h
    cases h

/-- C7 as amended: `_iter_versions_from_metadata` yields the empty sequence
on a transport error, extracts the (stripped) version tokens from a decodable
body, but RAISES `UnicodeDecodeError` (an `Except.error`) on a body that is
not decodable text instead of yielding the empty sequence. -/
theorem c7_amended_metadata_errors :
    (∀ e : Env, e.net MAVEN_METADATA_URL = none →
      _iter_versions_from_metadata e = (.ok [], [(DlKind.metadata, MAVEN_METADATA_URL)])) ∧
    (∀ e bytes, e.net MAVEN_METADATA_URL = some bytes → utf8Decode bytes = none →
      _iter_versions_from_metadata e = (.error (), [(DlKind.metadata, MAVEN_METADATA_URL)])) ∧
    (∀ e bytes xml, e.net MAVEN_METADATA_URL = some bytes → utf8Decode bytes = some xml →
      _iter_versions_from_metadata e =
        (.ok ((findVersionTags xml).map (fun v => String.mk (pyStrip v))),
          [(DlKind.metadata, MAVEN_METADATA_URL)])) := by
  refine ⟨?_, ?_, ?_⟩
  · intro e h
    simp [_iter_versions_from_metadata, h]
  · intro e bytes h hd
    simp [_iter_versions_from_metadata, h, hd]
  · intro e bytes xml h hd
    simp [_iter_versions_from_metadata, h, hd]

/-- Witness for the amended C7: transport error gives the empty list, and the
0xFF body raises. -/
theorem c7_amended_metadata_errors_witness :
    _iter_versions_from_metadata envC7T = (.ok [], [(DlKind.metadata, MAVEN_METADATA_URL)]) ∧
    _iter_versions_from_metadata envC7 = (.error (), [(DlKind.metadata, MAVEN_METADATA_URL)]) :=
  ⟨c7_amended_metadata_errors.1 envC7T rfl,
   c7_amended_metadata_errors.2.1 envC7 [255] (by decide) (by decide)⟩

theorem lookupL_nil (nm : String) : lookupL nm [] = none := rfl

theorem lookupL_cons (nm : String) (p : String × List Nat) (rest : List (String × List Nat)) :
    lookupL nm (p :: rest) = if p.1 = nm then some p.2 else lookupL nm rest := rfl

theorem removeKeyL_nil (k : String) : removeKeyL k [] = [] := rfl

theorem removeKeyL_cons (k : String) (p : String × List Nat) (rest : List (String × List Nat)) :
    removeKeyL k (p :: rest) =
      if p.1 = k then removeKeyL k rest else p :: removeKeyL k rest := rfl

theorem lookupL_removeKeyL (nm k : String) :
    ∀ files, lookupL nm (removeKeyL k files) = if nm = k then none else lookupL nm files := by
  intro files
  induction files with
  | nil =>
    rw [removeKeyL_nil, lookupL_nil]
    split
    · rfl
    · rfl
  | cons p rest ih =>
    rw [removeKeyL_cons]
    by_cases hp : p.1 = k
    · rw [if_pos hp, ih]
      by_cases hnk : nm = k
      · rw [if_pos hnk, if_pos hnk]
      · rw [if_neg hnk, if_neg hnk, lookupL_cons, if_neg (fun hx : p.1 = nm => hnk (hx ▸ hp))]
    · rw [if_neg hp, lookupL_cons]
      by_cases hpn : p.1 = nm
      · rw [if_pos hpn, if_neg (fun hnk : nm = k => hp (hpn.trans hnk)), lookupL_cons,
          if_pos hpn]
      · rw [if_neg hpn, ih]
        by_cases hnk : nm = k
        · rw [if_pos hnk, if_pos hnk]
        · rw [if_neg hnk, if_neg hnk, lookupL_cons, if_neg hpn]

theorem FS.lookup_write_self (fs : FS) (k : String) (v : List Nat) :
    (fs.write k v).lookup k = some v := by
  unfold FS.write FS.lookup
  rw [lookupL_cons, if_pos rfl]

theorem FS.lookup_write_other (fs : FS) (k nm : String) (v : List Nat) (h : nm ≠ k) :
    (fs.write k v).lookup nm = fs.lookup nm := by
  unfold FS.write FS.lookup
  rw [lookupL_cons, if_neg (fun hx : (k, v).1 = nm => h (Eq.symm hx)), lookupL_removeKeyL,
    if_neg h]

theorem FS.lookup_remove_eq (fs : FS) (k nm : String) :
    (fs.remove k).lookup nm = if nm = k then none else fs.lookup nm := by
  unfold FS.remove FS.lookup
  rw [lookupL_removeKeyL]

theorem FS.dirExists_write (fs : FS) (k : String) (v : List Nat) :
    (fs.write k v).dirExists = fs.dirExists := rfl

theorem FS.dirExists_remove (fs : FS) (k : String) :
    (fs.remove k).dirExists = fs.dirExists := rfl

theorem FS.lookup_ensure (fs : FS) (nm : String) :
    (ensureDirectory fs).lookup nm = fs.lookup nm := rfl

/-- C10: when the platform classifier is unsupported, `update_javafx`
returns `None` and performs no store mutation at all — no eviction, no
directory creation, and no downloads (empty download log). -/
theorem c10_unsupported_platform_no_mutation
    (e : Env) (fs : FS) (tv : Option String) (jv : Option Int)
    (force clear keep_latest : Bool) (mcc mcs : Int)
    (h : e.classifier = none) :
    update_javafx e fs tv jv force clear keep_latest mcc mcs = .ok (none, fs, []) := by
  unfold update_javafx
  rw [h]

/-- Witness for C10: an unsupported host (SunOS) with every mutating flag
set still returns `None` with the store untouched and nothing downloaded. -/
theorem c10_unsupported_platform_no_mutation_witness :
    update_javafx envC10 fsC10 (some "21") none true true true 0 0 =
      .ok (none, fsC10, []) :=
  c10_unsupported_platform_no_mutation envC10 fsC10 (some "21") none true true true 0 0
    (by decide)

/-- C1: if some artifact's fetch fails on all of its retry attempts, the
fetch loop stops at that artifact — the remaining artifacts are not fetched
(the store and download log are exactly those at the failure point) — and
`update_javafx` returns the cached release `current` computed after the
eviction step rather than the desired release. -/
theorem c1_failed_fetch_returns_current :
    (∀ e fs tv jv force clear kl mcc mcs cls fs1 current desired log fs2 log2,
      e.classifier = some cls →
      updAfterEvict e fs clear kl mcc mcs = .ok fs1 →
      detect_cached_version e fs1 = .ok current →
      updDesired e tv jv = .ok (some desired, log) →
      skipCheck force current desired = .ok false →
      fetchAll e force cls desired ARTIFACT_NAMES (ensureDirectory fs1) log =
        (false, fs2, log2) →
      update_javafx e fs tv jv force clear kl mcc mcs = .ok (current, fs2, log2)) ∧
    (∀ e force cls v a rest fs log fs2 log2,
      fetchOne e force cls v a fs log = (false, fs2, log2) →
      fetchAll e force cls v (a :: rest) fs log = (false, fs2, log2)) := by
  constructor
  · intro e fs tv jv force clear kl mcc mcs cls fs1 current desired log fs2 log2
      h1 h2 h3 h4 h5 h6
    simp only [update_javafx, h1, h2, h3, h4, h5, h6]
  · intro e force cls v a rest fs log fs2 log2 h
    simp only [fetchAll, h]

/-- Witness for C1: with every download transport-failing, the first
artifact exhausts its five attempts; the call returns the (absent) cached
release and only that artifact's five digest-download attempts are logged. -/
theorem c1_failed_fetch_returns_current_witness :
    update_javafx envC1 ⟨false, []⟩ (some "21") none false false false 100 100000 =
      .ok (none, ⟨true, []⟩,
        [(DlKind.sha, artifactShaUrl "javafx-base" "21" "linux"),
         (DlKind.sha, artifactShaUrl "javafx-base" "21" "linux"),
         (DlKind.sha, artifactShaUrl "javafx-base" "21" "linux"),
         (DlKind.sha, artifactShaUrl "javafx-base" "21" "linux"),
         (DlKind.sha, artifactShaUrl "javafx-base" "21" "linux")]) :=
  c1_failed_fetch_returns_current.1 envC1 ⟨false, []⟩ (some "21") none false false false
    100 100000 "linux" ⟨false, []⟩ none "21" [] ⟨true, []⟩
    [(DlKind.sha, artifactShaUrl "javafx-base" "21" "linux"),
     (DlKind.sha, artifactShaUrl "javafx-base" "21" "linux"),
     (DlKind.sha, artifactShaUrl "javafx-base" "21" "linux"),
     (DlKind.sha, artifactShaUrl "javafx-base" "21" "linux"),
     (DlKind.sha, artifactShaUrl "javafx-base" "21" "linux")]
    rfl rfl rfl rfl rfl rfl

/-- Counterexample for C4: with a store-write `OSError` on the first attempt
for `javafx-base` and everything else healthy, `update_javafx` retries that
artifact with a fresh digest and binary download (the base jar is downloaded
twice) and the call SUCCEEDS, returning the desired release — the artifact
fetch is not reported as a store-write failure. -/
theorem c4_counterexample :
    update_javafx envC4 ⟨false, []⟩ (some "21") none false false false 100 100000 =
      .ok (some "21", fsC4r, logC4r) ∧
    List.count (DlKind.jar, artifactJarUrl "javafx-base" "21" "linux") logC4r = 2 := by
  constructor
  · rfl
  · rfl

/-- C4 as amended: an `OSError` while writing the staged file or while
renaming it over the final target makes only the current attempt fail
(leaving the target untouched; a rename failure leaves the staged file), and
the artifact fetch IS retried with a fresh digest and binary download on the
next attempt of the 5-attempt budget, rather than being reported as a
store-write failure immediately. -/
theorem c4_amended_store_write_failure_retried :
    (∀ e jar_url sha_url target temp i fs log sb s data,
      e.net sha_url = some sb → decodeStrip sb = some s →
      e.net jar_url = some data → e.sha1hex data = s →
      e.tmpWriteFail target i = true →
      oneAttempt e jar_url sha_url target temp i fs log =
        (false, fs, (log ++ [(DlKind.sha, sha_url)]) ++ [(DlKind.jar, jar_url)])) ∧
    (∀ e jar_url sha_url target temp i fs log sb s data,
      e.net sha_url = some sb → decodeStrip sb = some s →
      e.net jar_url = some data → e.sha1hex data = s →
      e.tmpWriteFail target i = false → e.replaceFail target i = true →
      oneAttempt e jar_url sha_url target temp i fs log =
        (false, fs.write temp data, (log ++ [(DlKind.sha, sha_url)]) ++ [(DlKind.jar, jar_url)])) ∧
    (∀ e jar_url sha_url target temp i rem fs log fs2 log2,
      oneAttempt e jar_url sha_url target temp i fs log = (false, fs2, log2) →
      fetchAttempts e jar_url sha_url target temp i (rem + 1) fs log =
        fetchAttempts e jar_url sha_url target temp (i + 1) rem fs2 log2) := by
  refine ⟨?_, ?_, ?_⟩
  · intro e jar_url sha_url target temp i fs log sb s data h1 h2 h3 h4 h5
    simp only [oneAttempt, h1, h2, h3, h4, h5, if_pos rfl, if_true]
  · intro e jar_url sha_url target temp i fs log sb s data h1 h2 h3 h4 h5 h6
    simp only [oneAttempt, h1, h2, h3, h4, h5, h6, if_pos rfl, if_true, if_false,
      Bool.false_eq_true]
  · intro e jar_url sha_url target temp i rem fs log fs2 log2 h
    simp only [fetchAttempts, h]

/-- Witness for the amended C4: a staged-write fault at attempt 0 with good
downloads fails the attempt without touching the store, and the loop proceeds
to attempt 1. -/
theorem c4_amended_store_write_failure_retried_witness :
    oneAttempt envC4 (artifactJarUrl "javafx-base" "21" "linux")
        (artifactShaUrl "javafx-base" "21" "linux") "javafx-base-21-linux.jar"
        "javafx-base-21-linux.jar.tmp" 0 ⟨true, []⟩ [] =
      (false, ⟨true, []⟩,
        (([] : Log) ++ [(DlKind.sha, artifactShaUrl "javafx-base" "21" "linux")]) ++
          [(DlKind.jar, artifactJarUrl "javafx-base" "21" "linux")]) :=
  c4_amended_store_write_failure_retried.1 envC4
    (artifactJarUrl "javafx-base" "21" "linux") (artifactShaUrl "javafx-base" "21" "linux")
    "javafx-base-21-linux.jar" "javafx-base-21-linux.jar.tmp" 0 ⟨true, []⟩ []
    shaBodyC4 "da39a3ee5e6b4b0d3255bfef95601890afd80709" [7]
    rfl rfl rfl rfl rfl

/-- Counterexample for C3: target version "23-ea" (a release identifier with
a textual suffix) is fetched successfully — `update_javafx` returns it and
the store holds all four artifact files — yet `detect_cached_version` on
that same store reports no cached release at all: the filename pattern
(javafx.py:141) cannot capture a version containing a dash. -/
theorem c3_counterexample :
    update_javafx envC3 ⟨false, []⟩ (some "23-ea") none false false false 100 100000 =
      .ok (some "23-ea", fsC3r, logC3r) ∧
    detect_cached_version envC3 fsC3r = .ok none := by
  constructor
  · rfl
  · rfl

theorem oneAttempt_lookup (e : Env) (jar_url sha_url target temp : String) (i : Nat)
    (fs : FS) (log : Log) (ok : Bool) (fs2 : FS) (log2 : Log)
    (h : oneAttempt e jar_url sha_url target temp i fs log = (ok, fs2, log2)) :
    ∀ nm bytes, fs2.lookup nm = some bytes →
      fs.lookup nm = some bytes ∨
        ((nm = temp ∨ nm = target) ∧ verifiedFor e jar_url sha_url bytes) := by
  intro nm bytes hl
  unfold oneAttempt at h
  cases hsha : e.net sha_url
  · simp only [hsha] at h
    have hfs : fs = fs2 := congrArg (fun t => t.2.1) h
    rw [← hfs] at hl
    exact Or.inl hl
  · rename_i sb
    simp only [hsha] at h
    cases hdec : decodeStrip sb
    · simp only [hdec] at h
      have hfs : fs = fs2 := congrArg (fun t => t.2.1) h
      rw [← hfs] at hl
      exact Or.inl hl
    · rename_i s
      simp only [hdec] at h
      cases hjar : e.net jar_url
      · simp only [hjar] at h
        have hfs : fs = fs2 := congrArg (fun t => t.2.1) h
        rw [← hfs] at hl
        exact Or.inl hl
      · rename_i data
        simp only [hjar] at h
        by_cases hhash : e.sha1hex data = s
        · rw [if_pos hhash] at h
          by_cases htw : e.tmpWriteFail target i = true
          · rw [if_pos htw] at h
            have hfs : fs = fs2 := congrArg (fun t => t.2.1) h
            rw [← hfs] at hl
            exact Or.inl hl
          · rw [if_neg htw] at h
            by_cases hrf : e.replaceFail target i = true
            · rw [if_pos hrf] at h
              have hfs : fs.write temp data = fs2 := congrArg (fun t => t.2.1) h
              rw [← hfs] at hl
              by_cases hnt : nm = temp
              · subst hnt
                rw [FS.lookup_write_self] at hl
                injection hl with hb
                subst hb
                exact Or.inr ⟨Or.inl rfl, hjar, sb, s, hsha, hdec, hhash⟩
              · rw [FS.lookup_write_other _ _ _ _ hnt] at hl
                exact Or.inl hl
            · rw [if_neg hrf] at h
              have hfs : ((fs.write temp data).remove temp).write target data = fs2 :=
                congrArg (fun t => t.2.1) h
              rw [← hfs] at hl
              by_cases hnt : nm = target
              · subst hnt
                rw [FS.lookup_write_self] at hl
                injection hl with hb
                subst hb
                exact Or.inr ⟨Or.inr rfl, hjar, sb, s, hsha, hdec, hhash⟩
              · rw [FS.lookup_write_other _ _ _ _ hnt, FS.lookup_remove_eq] at hl
                by_cases hnt2 : nm = temp
                · rw [if_pos hnt2] at hl
                  cases hl
                · rw [if_neg hnt2, FS.lookup_write_other _ _ _ _ hnt2] at hl
                  exact Or.inl hl
        · rw [if_neg hhash] at h
          have hfs : fs = fs2 := congrArg (fun t => t.2.1) h
          rw [← hfs] at hl
          exact Or.inl hl

theorem fetchAttempts_lookup (e : Env) (jar_url sha_url target temp : String) :
    ∀ rem i fs log ok fs2 log2,
      fetchAttempts e jar_url sha_url target temp i rem fs log = (ok, fs2, log2) →
      ∀ nm bytes, fs2.lookup nm = some bytes →
        fs.lookup nm = some bytes ∨
          ((nm = temp ∨ nm = target) ∧ verifiedFor e jar_url sha_url bytes) := by
  intro rem
  induction rem with
  | zero =>
    intro i fs log ok fs2 log2 h nm bytes hl
    have hfs : fs = fs2 := congrArg (fun t => t.2.1) h
    rw [← hfs] at hl
    exact Or.inl hl
  | succ rem ih =>
    intro i fs log ok fs2 log2 h nm bytes hl
    rw [fetchAttempts] at h
    rcases ha : oneAttempt e jar_url sha_url target temp i fs log with ⟨ok1, fsa, loga⟩
    rw [ha] at h
    cases ok1
    · rcases ih (i + 1) fsa loga ok fs2 log2 h nm bytes hl with hin | hr
      · exact oneAttempt_lookup e jar_url sha_url target temp i fs log false fsa loga ha
          nm bytes hin
      · exact Or.inr hr
    · have hfs : fsa = fs2 := congrArg (fun t => t.2.1) h
      rw [← hfs] at hl
      exact oneAttempt_lookup e jar_url sha_url target temp i fs log true fsa loga ha
        nm bytes hl

theorem fetchOne_lookup (e : Env) (force : Bool) (cls desired name : String)
    (fs : FS) (log : Log) (ok : Bool) (fs2 : FS) (log2 : Log)
    (h : fetchOne e force cls desired name fs log = (ok, fs2, log2)) :
    ∀ nm bytes, fs2.lookup nm = some bytes →
      fs.lookup nm = some bytes ∨
        ((nm = tempName (jarFileName name desired cls) ∨ nm = jarFileName name desired cls) ∧
          verifiedFor e (artifactJarUrl name desired cls) (artifactShaUrl name desired cls)
            bytes) := by
  intro nm bytes hl
  unfold fetchOne at h
  by_cases hc : force = false ∧ (fs.lookup (jarFileName name desired cls)).isSome = true
  · rw [if_pos hc] at h
    rcases hv : _validate_cached_file e fs (jarFileName name desired cls)
        (artifactShaUrl name desired cls) log with ⟨vb, vlog⟩
    rw [hv] at h
    cases vb
    · exact fetchAttempts_lookup e _ _ _ _ 5 0 fs vlog ok fs2 log2 h nm bytes hl
    · have hfs : fs = fs2 := congrArg (fun t => t.2.1) h
      rw [← hfs] at hl
      exact Or.inl hl
  · rw [if_neg hc] at h
    exact fetchAttempts_lookup e _ _ _ _ 5 0 fs log ok fs2 log2 h nm bytes hl

theorem fetchAll_lookup (e : Env) (force : Bool) (cls desired : String) :
    ∀ names fs log ok fs2 log2,
      fetchAll e force cls desired names fs log = (ok, fs2, log2) →
      ∀ nm bytes, fs2.lookup nm = some bytes →
        fs.lookup nm = some bytes ∨
          ∃ name, name ∈ names ∧
            (nm = tempName (jarFileName name desired cls) ∨
              nm = jarFileName name desired cls) ∧
            verifiedFor e (artifactJarUrl name desired cls) (artifactShaUrl name desired cls)
              bytes := by
  intro names
  induction names with
  | nil =>
    intro fs log ok fs2 log2 h nm bytes hl
    have hfs : fs = fs2 := congrArg (fun t => t.2.1) h
    rw [← hfs] at hl
    exact Or.inl hl
  | cons a rest ih =>
    intro fs log ok fs2 log2 h nm bytes hl
    rw [fetchAll] at h
    rcases ha : fetchOne e force cls desired a fs log with ⟨ok1, fsa, loga⟩
    rw [ha] at h
    cases ok1
    · have hfs : fsa = fs2 := congrArg (fun t => t.2.1) h
      rw [← hfs] at hl
      rcases fetchOne_lookup e force cls desired a fs log false fsa loga ha nm bytes hl with
        hin | hr
      · exact Or.inl hin
      · exact Or.inr ⟨a, List.mem_cons_self a rest, hr⟩
    · rcases ih fsa loga ok fs2 log2 h nm bytes hl with hin | hr
      · rcases fetchOne_lookup e force cls desired a fs log true fsa loga ha nm bytes hin with
          hin2 | hr2
        · exact Or.inl hin2
        · exact Or.inr ⟨a, List.mem_cons_self a rest, hr2⟩
      · rcases hr with ⟨name, hmem, hrest⟩
        exact Or.inr ⟨name, List.mem_cons_of_mem a hmem, hrest⟩

theorem clearStep_lookup (e : Env) (kl : Bool) (latest : Option String)
    (acc : FS) (entry nm : String) (bytes : List Nat)
    (h : (clearStep e kl latest acc entry).lookup nm = some bytes) :
    acc.lookup nm = some bytes := by
  unfold clearStep at h
  split at h
  · exact h
  · split at h
    · exact h
    · rw [FS.lookup_remove_eq] at h
      split at h
      · cases h
      · exact h

theorem clearFold_lookup (e : Env) (kl : Bool) (latest : Option String) :
    ∀ (entries : List String) (acc : FS) (nm : String) (bytes : List Nat),
      (entries.foldl (clearStep e kl latest) acc).lookup nm = some bytes →
      acc.lookup nm = some bytes := by
  intro entries
  induction entries with
  | nil =>
    intro acc nm bytes h
    exact h
  | cons a rest ih =>
    intro acc nm bytes h
    rw [List.foldl_cons] at h
    exact clearStep_lookup e kl latest acc a nm bytes (ih _ nm bytes h)

theorem clear_cache_lookup (e : Env) (fs : FS) (kl : Bool) (fs2 : FS)
    (h : _clear_cache e fs kl = .ok fs2) :
    ∀ nm bytes, fs2.lookup nm = some bytes → fs.lookup nm = some bytes := by
  intro nm bytes hl
  unfold _clear_cache at h
  split at h
  · injection h with h1
    rw [← h1] at hl
    exact hl
  · cases hd : (if kl then detect_cached_version e fs else Except.ok none) <;> rw [hd] at h
    · cases h
    · injection h with h1
      rw [← h1] at hl
      exact clearFold_lookup e kl _ (_cache_entries fs) fs nm bytes hl

theorem updAfterEvict_lookup (e : Env) (fs : FS) (clear kl : Bool) (mcc mcs : Int) (fs2 : FS)
    (h : updAfterEvict e fs clear kl mcc mcs = .ok fs2) :
    ∀ nm bytes, fs2.lookup nm = some bytes → fs.lookup nm = some bytes := by
  intro nm bytes hl
  unfold updAfterEvict at h
  split at h
  · exact clear_cache_lookup e fs kl fs2 h nm bytes hl
  · injection h with h1
    rw [← h1] at hl
    exact hl

/-- C2: (i) a download attempt whose binary does not match the remote digest
changes the store in no way at all — in particular no file is created or
replaced under the final target name during that attempt; (ii) any byte
content that an `update_javafx` call makes visible under a name it did not
already have — staging (`.jar.tmp`) or final (`.jar`) — is the remote binary
of one required artifact, verified against that artifact's remote digest, and
the only path to the final name in the model is the staged write followed by
the atomic rename (`os.replace`).  Hence a digest-mismatching binary never
ends up under a final target name. -/
theorem c2_digest_mismatch_never_installed :
    (∀ e jar_url sha_url target temp i fs log sb s data,
      e.net sha_url = some sb → decodeStrip sb = some s → e.net jar_url = some data →
      e.sha1hex data ≠ s →
      oneAttempt e jar_url sha_url target temp i fs log =
        (false, fs, (log ++ [(DlKind.sha, sha_url)]) ++ [(DlKind.jar, jar_url)])) ∧
    (∀ e fs tv jv force clear kl mcc mcs r fs2 log2,
      update_javafx e fs tv jv force clear kl mcc mcs = .ok (r, fs2, log2) →
      ∀ nm bytes, fs2.lookup nm = some bytes →
        fs.lookup nm = some bytes ∨
          ∃ name desired cls, name ∈ ARTIFACT_NAMES ∧
            (nm = tempName (jarFileName name desired cls) ∨
              nm = jarFileName name desired cls) ∧
            verifiedFor e (artifactJarUrl name desired cls)
              (artifactShaUrl name desired cls) bytes) := by
  constructor
  · intro e jar_url sha_url target temp i fs log sb s data h1 h2 h3 h4
    simp only [oneAttempt, h1, h2, h3, if_neg h4]
  · intro e fs tv jv force clear kl mcc mcs r fs2 log2 h nm bytes hl
    unfold update_javafx at h
    cases hc : e.classifier
    · simp only [hc] at h
      have hfs : fs = fs2 := congrArg (fun t => t.2.1) (Except.ok.inj h)
      rw [← hfs] at hl
      exact Or.inl hl
    · rename_i cls
      simp only [hc] at h
      cases he : updAfterEvict e fs clear kl mcc mcs
      · simp only [he] at h
        exact Except.noConfusion h
      · rename_i fs1
        simp only [he] at h
        cases hd : detect_cached_version e fs1
        · simp only [hd] at h
          exact Except.noConfusion h
        · rename_i current
          simp only [hd] at h
          cases hu : updDesired e tv jv
          · simp only [hu] at h
            exact Except.noConfusion h
          · rename_i dl
            rcases dl with ⟨dOpt, log⟩
            cases dOpt
            · simp only [hu] at h
              have hfs : fs1 = fs2 := congrArg (fun t => t.2.1) (Except.ok.inj h)
              rw [← hfs] at hl
              exact Or.inl (updAfterEvict_lookup e fs clear kl mcc mcs fs1 he nm bytes hl)
            · rename_i desired
              simp only [hu] at h
              cases hs : skipCheck force current desired
              · simp only [hs] at h
                exact Except.noConfusion h
              · rename_i skip
                simp only [hs] at h
                cases skip
                · rcases hf : fetchAll e force cls desired ARTIFACT_NAMES
                      (ensureDirectory fs1) log with ⟨okF, fsF, logF⟩
                  simp only [hf] at h
                  have hfs : fsF = fs2 := by
                    cases okF
                    · exact congrArg (fun t => t.2.1) (Except.ok.inj h)
                    · exact congrArg (fun t => t.2.1) (Except.ok.inj h)
                  rw [← hfs] at hl
                  rcases fetchAll_lookup e force cls desired ARTIFACT_NAMES
                      (ensureDirectory fs1) log okF fsF logF hf nm bytes hl with hin | hr
                  · rw [FS.lookup_ensure] at hin
                    exact Or.inl
                      (updAfterEvict_lookup e fs clear kl mcc mcs fs1 he nm bytes hin)
                  · rcases hr with ⟨name, hmem, hshape, hver⟩
                    exact Or.inr ⟨name, desired, cls, hmem, hshape, hver⟩
                · have hfs : fs1 = fs2 := congrArg (fun t => t.2.1) (Except.ok.inj h)
                  rw [← hfs] at hl
                  exact Or.inl (updAfterEvict_lookup e fs clear kl mcc mcs fs1 he nm bytes hl)

/-- Witness for C2: a concrete mismatching attempt leaves the store exactly
as it was, and a concrete unsupported-platform run exhibits the content
characterization for a pre-existing file. -/
theorem c2_digest_mismatch_never_installed_witness :
    oneAttempt envC2 "u" "u.sha1" "t.jar" "t.jar.tmp" 0 ⟨true, []⟩ [] =
      (false, ⟨true, []⟩,
        (([] : Log) ++ [(DlKind.sha, "u.sha1")]) ++ [(DlKind.jar, "u")]) ∧
    (fsC2b.lookup "a" = some [1] ∨
      ∃ name desired cls, name ∈ ARTIFACT_NAMES ∧
        ("a" = tempName (jarFileName name desired cls) ∨
          "a" = jarFileName name desired cls) ∧
        verifiedFor envC2b (artifactJarUrl name desired cls)
          (artifactShaUrl name desired cls) [1]) :=
  ⟨c2_digest_mismatch_never_installed.1 envC2 "u" "u.sha1" "t.jar" "t.jar.tmp" 0
      ⟨true, []⟩ [] ("aaaa".data.map Char.toNat) "aaaa" [9] rfl rfl rfl (by decide),
   c2_digest_mismatch_never_installed.2 envC2b fsC2b (some "21") none false false false
      100 100 none fsC2b [] rfl "a" [1] rfl⟩

theorem mem_insertSorted (nm x : String) :
    ∀ l, nm ∈ insertSorted x l ↔ nm = x ∨ nm ∈ l := by
  intro l
  induction l with
  | nil => simp [insertSorted]
  | cons y ys ih =>
    rw [insertSorted]
    split
    · simp only [List.mem_cons, ih]
      try tauto
    · simp only [List.mem_cons]
      try tauto

theorem mem_sortStrings (nm : String) :
    ∀ l, nm ∈ sortStrings l ↔ nm ∈ l := by
  intro l
  induction l with
  | nil => simp [sortStrings]
  | cons x xs ih =>
    unfold sortStrings at ih ⊢
    rw [List.foldr_cons, mem_insertSorted, ih, List.mem_cons]

theorem mem_keys_iff_lookupL (nm : String) :
    ∀ files : List (String × List Nat), nm ∈ files.map Prod.fst ↔ lookupL nm files ≠ none := by
  intro files
  induction files with
  | nil => simp [lookupL_nil]
  | cons p rest ih =>
    rw [List.map_cons, List.mem_cons, lookupL_cons]
    by_cases hp : p.1 = nm
    · rw [if_pos hp]
      constructor
      · intro _
        simp
      · intro _
        exact Or.inl hp.symm
    · rw [if_neg hp, ih]
      constructor
      · rintro (h1 | h2)
        · exact absurd h1.symm hp
        · exact h2
      · intro h
        exact Or.inr h

theorem mem_dedupFirstAux (nm : String) :
    ∀ l seen, nm ∈ dedupFirstAux l seen ↔ nm ∈ l ∧ nm ∉ seen := by
  intro l
  induction l with
  | nil =>
    intro seen
    simp [dedupFirstAux]
  | cons x xs ih =>
    intro seen
    rw [dedupFirstAux]
    split
    · rename_i hx
      rw [ih]
      simp only [List.mem_cons]
      constructor
      · rintro ⟨h1, h2⟩
        exact ⟨Or.inr h1, h2⟩
      · rintro ⟨h1, h2⟩
        rcases h1 with h3 | h3
        · subst h3
          exact absurd hx h2
        · exact ⟨h3, h2⟩
    · rename_i hx
      simp only [List.mem_cons, ih]
      constructor
      · rintro (h1 | ⟨h1, h2⟩)
        · subst h1
          exact ⟨Or.inl rfl, hx⟩
        · refine ⟨Or.inr h1, fun hc => h2 (Or.inr hc)⟩
      · rintro ⟨h1, h2⟩
        by_cases hnx : nm = x
        · exact Or.inl hnx
        · rcases h1 with h3 | h3
          · exact absurd h3 hnx
          · refine Or.inr ⟨h3, ?_⟩
            rintro (h4 | h4)
            · exact hnx h4
            · exact h2 h4

theorem FS.mem_names_iff (fs : FS) (nm : String) :
    nm ∈ fs.names ↔ fs.lookup nm ≠ none := by
  unfold FS.names FS.lookup
  rw [mem_dedupFirstAux, mem_keys_iff_lookupL]
  simp

theorem clearStep_dirExists (e : Env) (kl : Bool) (latest : Option String) (acc : FS)
    (entry : String) : (clearStep e kl latest acc entry).dirExists = acc.dirExists := by
  unfold clearStep
  split
  · rfl
  · split
    · rfl
    · rfl

theorem clearFold_dirExists (e : Env) (kl : Bool) (latest : Option String) :
    ∀ (E : List String) (acc : FS),
      (E.foldl (clearStep e kl latest) acc).dirExists = acc.dirExists := by
  intro E
  induction E with
  | nil =>
    intro acc
    rfl
  | cons a rest ih =>
    intro acc
    rw [List.foldl_cons, ih, clearStep_dirExists]

theorem clearStep_unlink_false (e : Env) (latest : Option String) (acc : FS) (entry : String)
    (hu : e.unlinkFail entry = false) :
    clearStep e false latest acc entry = acc.remove entry := by
  unfold clearStep
  rw [if_neg (by simp), if_neg (by simp [hu])]

theorem clearFold_remove_lookup (e : Env) (latest : Option String) :
    ∀ (E : List String) (acc : FS) (nm : String),
      (∀ x ∈ E, e.unlinkFail x = false) →
      (E.foldl (clearStep e false latest) acc).lookup nm =
        if nm ∈ E then none else acc.lookup nm := by
  intro E
  induction E with
  | nil =>
    intro acc nm hu
    simp
  | cons a rest ih =>
    intro acc nm hu
    rw [List.foldl_cons, clearStep_unlink_false e latest acc a (hu a (List.mem_cons_self a rest)),
      ih _ nm (fun x hx => hu x (List.mem_cons_of_mem a hx))]
    by_cases hr : nm ∈ rest
    · rw [if_pos hr, if_pos (List.mem_cons_of_mem a hr)]
    · rw [if_neg hr, FS.lookup_remove_eq]
      by_cases hna : nm = a
      · rw [if_pos hna, if_pos (by rw [hna]; exact List.mem_cons_self a rest)]
      · rw [if_neg hna, if_neg (by
          rw [List.mem_cons]
          rintro (h | h)
          · exact hna h
          · exact hr h)]

theorem startsWith_append_self : ∀ (p t : List Char), startsWithL p (p ++ t) = true := by
  intro p
  induction p with
  | nil =>
    intro t
    rfl
  | cons c cs ih =>
    intro t
    rw [List.cons_append]
    show (if c = c then startsWithL cs (cs ++ t) else false) = true
    rw [if_pos rfl]
    exact ih t

theorem containsSub_of_startsWith (v l : List Char) (h : startsWithL v l = true) :
    containsSub v l = true := by
  cases l with
  | nil => exact h
  | cons c rest =>
    unfold containsSub
    rw [h]
    rfl

theorem containsSub_cons (v : List Char) (c : Char) (rest : List Char)
    (h : containsSub v rest = true) : containsSub v (c :: rest) = true := by
  unfold containsSub
  rw [h]
  simp

theorem containsSub_append_left (v : List Char) :
    ∀ (pre m : List Char), containsSub v m = true → containsSub v (pre ++ m) = true := by
  intro pre
  induction pre with
  | nil =>
    intro m h
    exact h
  | cons c cs ih =>
    intro m h
    rw [List.cons_append]
    exact containsSub_cons v c _ (ih m h)

theorem takeWhile_startsWith (p : Char → Bool) :
    ∀ l : List Char, startsWithL (l.takeWhile p) l = true := by
  intro l
  induction l with
  | nil => rfl
  | cons c rest ih =>
    rw [List.takeWhile_cons]
    cases hp : p c
    · rfl
    · show (if c = c then startsWithL (rest.takeWhile p) rest else false) = true
      rw [if_pos rfl]
      exact ih

theorem cacheMatchAt_sub (cls : List Char) (l v : List Char)
    (h : cacheMatchAt cls l = some v) : v ≠ [] ∧ containsSub v l = true := by
  unfold cacheMatchAt at h
  by_cases h7 : startsWithL "javafx-".data l = true
  · simp only [if_pos h7] at h
    by_cases ha : (l.drop 7).takeWhile (fun ch => ch ≠ '-') = []
    · rw [if_pos ha] at h
      cases h
    · rw [if_neg ha] at h
      cases hdw : (l.drop 7).dropWhile (fun ch => ch ≠ '-') with
      | nil =>
        rw [hdw] at h
        cases h
      | cons d rest2 =>
        rw [hdw] at h
        simp only [] at h
        by_cases hv : rest2.takeWhile (fun ch => ch ≠ '-') = []
        · rw [if_pos hv] at h
          cases h
        · rw [if_neg hv] at h
          by_cases hr3 : rest2.dropWhile (fun ch => ch ≠ '-') = '-' :: (cls ++ ".jar".data)
          · rw [if_pos hr3] at h
            injection h with h1
            subst h1
            refine ⟨hv, ?_⟩
            have hsw : startsWithL (rest2.takeWhile (fun ch => ch ≠ '-')) rest2 = true :=
              takeWhile_startsWith _ rest2
            have h1 : containsSub (rest2.takeWhile (fun ch => ch ≠ '-')) rest2 = true :=
              containsSub_of_startsWith _ _ hsw
            have h2 := containsSub_cons _ d _ h1
            have h3 : (l.drop 7).takeWhile (fun ch => ch ≠ '-') ++
                (l.drop 7).dropWhile (fun ch => ch ≠ '-') = l.drop 7 :=
              List.takeWhile_append_dropWhile _ _
            rw [hdw] at h3
            have h4 : containsSub (rest2.takeWhile (fun ch => ch ≠ '-')) (l.drop 7) = true := by
              rw [← h3]
              exact containsSub_append_left _ _ _ h2
            have h5 : l.take 7 ++ l.drop 7 = l := List.take_append_drop 7 l
            rw [← h5]
            exact containsSub_append_left _ _ _ h4
          · rw [if_neg hr3] at h
            cases h
  · rw [if_neg h7] at h
    cases h

theorem cacheSearch_sub (cls : List Char) :
    ∀ l v, cacheSearch cls l = some v → v ≠ [] ∧ containsSub v l = true := by
  intro l
  induction l with
  | nil =>
    intro v h
    cases h
  | cons c rest ih =>
    intro v h
    rw [cacheSearch] at h
    cases hm : cacheMatchAt cls (c :: rest)
    · simp only [hm] at h
      obtain ⟨h1, h2⟩ := ih v h
      exact ⟨h1, containsSub_cons v c rest h2⟩
    · rename_i v0
      simp only [hm] at h
      injection h with h1
      subst h1
      exact cacheMatchAt_sub cls (c :: rest) v0 hm

theorem cacheVersionOf_sub (cls nm l : String)
    (h : cacheVersionOf cls nm = some l) :
    l ≠ "" ∧ containsSub l.data nm.data = true := by
  unfold cacheVersionOf at h
  cases hs : cacheSearch cls.data nm.data
  · rw [hs] at h
    cases h
  · rename_i v
    simp only [hs] at h
    injection h with h1
    obtain ⟨h2, h3⟩ := cacheSearch_sub cls.data nm.data v hs
    subst h1
    constructor
    · intro hc
      exact h2 (congrArg String.data hc)
    · exact h3

theorem clearStep_keep (e : Env) (l : String) (acc : FS) (entry : String)
    (hne : l ≠ "") (hsub : containsSub l.data entry.data = true) :
    clearStep e true (some l) acc entry = acc := by
  unfold clearStep
  rw [if_pos (by simp [hne, hsub])]

theorem clearStep_other (e : Env) (kl : Bool) (latest : Option String) (acc : FS)
    (entry nm : String) (hne : nm ≠ entry) :
    (clearStep e kl latest acc entry).lookup nm = acc.lookup nm := by
  unfold clearStep
  split
  · rfl
  · split
    · rfl
    · rw [FS.lookup_remove_eq, if_neg hne]

theorem clearFold_keep_lookup (e : Env) (l : String) (hne : l ≠ "") :
    ∀ (E : List String) (acc : FS) (nm : String),
      containsSub l.data nm.data = true →
      (E.foldl (clearStep e true (some l)) acc).lookup nm = acc.lookup nm := by
  intro E
  induction E with
  | nil =>
    intro acc nm _
    rfl
  | cons a rest ih =>
    intro acc nm hsub
    rw [List.foldl_cons, ih _ nm hsub]
    by_cases hna : nm = a
    · subst hna
      rw [clearStep_keep e l acc nm hne hsub]
    · rw [clearStep_other e true (some l) acc a nm hna]

/-- C9: after the eviction pass with `max_cache_count = 0`: (i) with
`keep_latest = false` (and no unlink fault) the store retains zero matching
cache entries; (ii) with `keep_latest = true`, every entry belonging to the
release reported as newest-complete BEFORE deletion began (the snapshot is
taken before the loop) survives the pass; (iii) a nonempty store makes the
`max_cache_count = 0` trigger in `update_javafx` run exactly this pass. -/
theorem c9_eviction_bound :
    (∀ e fs fs2, (∀ n, e.unlinkFail n = false) →
      _clear_cache e fs false = .ok fs2 → _cache_entries fs2 = []) ∧
    (∀ e fs fs2 l cls nm b,
      detect_cached_version e fs = .ok (some l) →
      _clear_cache e fs true = .ok fs2 →
      cacheVersionOf cls nm = some l →
      fs.lookup nm = some b →
      fs2.lookup nm = some b) ∧
    (∀ e fs kl mcs, 0 < (_cache_entries fs).length →
      updAfterEvict e fs false kl 0 mcs = _clear_cache e fs kl) := by
  refine ⟨?_, ?_, ?_⟩
  · intro e fs fs2 hu h
    unfold _clear_cache at h
    split at h
    · rename_i hdir
      injection h with h1
      subst h1
      unfold _cache_entries
      rw [if_pos hdir]
    · rename_i hdir
      have h2 : Except.ok (ε := Unit)
          ((_cache_entries fs).foldl (clearStep e false none) fs) = Except.ok fs2 := h
      injection h2 with h1
      have hd2 : fs2.dirExists = fs.dirExists := by
        rw [← h1]
        exact clearFold_dirExists e false none _ fs
      unfold _cache_entries
      rw [if_neg (by rw [hd2]; exact hdir)]
      have hfilter : fs2.names.filter globMatch = [] := by
        rw [List.filter_eq_nil_iff]
        intro nm hmem hglob
        have hlk : fs2.lookup nm ≠ none := (FS.mem_names_iff fs2 nm).1 hmem
        rw [← h1, clearFold_remove_lookup e none _ fs nm (fun x _ => hu x)] at hlk
        by_cases hin : nm ∈ _cache_entries fs
        · rw [if_pos hin] at hlk
          exact hlk rfl
        · rw [if_neg hin] at hlk
          apply hin
          unfold _cache_entries
          rw [if_neg hdir, mem_sortStrings, List.mem_filter]
          exact ⟨(FS.mem_names_iff fs nm).2 hlk, hglob⟩
      rw [hfilter]
      rfl
  · intro e fs fs2 l cls nm b hd h hcap hlk
    obtain ⟨hlne, hsub⟩ := cacheVersionOf_sub cls nm l hcap
    unfold _clear_cache at h
    split at h
    · injection h with h1
      rw [← h1]
      exact hlk
    · simp only [if_true, hd] at h
      injection h with h1
      rw [← h1, clearFold_keep_lookup e l hlne (_cache_entries fs) fs nm hsub]
      exact hlk
  · intro e fs kl mcs h
    unfold updAfterEvict
    rw [if_pos (Or.inr (Or.inl (by exact_mod_cast h)))]

/-- Witness for C9: a store with one matching entry and one foreign file is
cleared down to the foreign file; a complete release "21" survives a
keep-latest pass untouched; a nonempty store triggers the pass at
`max_cache_count = 0`. -/
theorem c9_eviction_bound_witness :
    _cache_entries (⟨true, [("notes.txt", [2])]⟩ : FS) = [] ∧
    FS.lookup fsC9b "javafx-base-21-linux.jar" = some [1] ∧
    updAfterEvict envC9 fsC9a false false 0 100 = _clear_cache envC9 fsC9a false :=
  ⟨c9_eviction_bound.1 envC9 fsC9a ⟨true, [("notes.txt", [2])]⟩ (fun n => rfl) rfl,
   c9_eviction_bound.2.1 envC9 fsC9b fsC9b "21" "linux" "javafx-base-21-linux.jar" [1]
     rfl rfl rfl rfl,
   c9_eviction_bound.2.2 envC9 fsC9a false 100 (by decide)⟩

theorem takeWhile_all_append (p : Char → Bool) :
    ∀ (xs ys : List Char), (∀ x ∈ xs, p x = true) →
      (xs ++ ys).takeWhile p = xs ++ ys.takeWhile p := by
  intro xs
  induction xs with
  | nil =>
    intro ys _
    rfl
  | cons a xs ih =>
    intro ys h
    rw [List.cons_append, List.takeWhile_cons_of_pos (h a (List.mem_cons_self a xs)),
      ih ys (fun x hx => h x (List.mem_cons_of_mem a hx)), List.cons_append]

theorem dropWhile_all_append (p : Char → Bool) :
    ∀ (xs ys : List Char), (∀ x ∈ xs, p x = true) →
      (xs ++ ys).dropWhile p = ys.dropWhile p := by
  intro xs
  induction xs with
  | nil =>
    intro ys _
    rfl
  | cons a xs ih =>
    intro ys h
    rw [List.cons_append, List.dropWhile_cons_of_pos (h a (List.mem_cons_self a xs)),
      ih ys (fun x hx => h x (List.mem_cons_of_mem a hx))]

theorem startsWith_append_ext :
    ∀ (p l t : List Char), startsWithL p l = true → startsWithL p (l ++ t) = true := by
  intro p
  induction p with
  | nil =>
    intro l t _
    rfl
  | cons c cs ih =>
    intro l t h
    cases l with
    | nil => cases h
    | cons x xs =>
      rw [List.cons_append]
      show (if c = x then startsWithL cs (xs ++ t) else false) = true
      have h' : (if c = x then startsWithL cs xs else false) = true := h
      by_cases hc : c = x
      · rw [if_pos hc]
        rw [if_pos hc] at h'
        exact ih xs t h'
      · rw [if_neg hc] at h'
        cases h'

/-- `rsplit("/", 1)[-1]` of a URL whose final segment is slash-free. -/
theorem lastSegment_append (p s : List Char) (hs : ∀ c ∈ s, c ≠ '/') :
    lastSegment (p ++ '/' :: s) = s := by
  unfold lastSegment
  rw [List.reverse_append, List.reverse_cons, List.append_assoc,
    takeWhile_all_append _ s.reverse (['/'] ++ p.reverse)
      (by
        intro x hx
        simp only [decide_eq_true_eq]
        exact hs x (List.mem_reverse.mp hx)),
    List.singleton_append, List.takeWhile_cons_of_neg (by simp), List.append_nil,
    List.reverse_reverse]

/-- The final segment of a list ending in a slash-free suffix keeps that
suffix. -/
theorem lastSegment_ends (y s : List Char) (hs : ∀ c ∈ s, c ≠ '/') :
    ∃ pre, lastSegment (y ++ s) = pre ++ s := by
  unfold lastSegment
  rw [List.reverse_append,
    takeWhile_all_append _ s.reverse y.reverse
      (by
        intro x hx
        simp only [decide_eq_true_eq]
        exact hs x (List.mem_reverse.mp hx)),
    List.reverse_append, List.reverse_reverse]
  exact ⟨(y.reverse.takeWhile (fun ch => decide (ch ≠ '/'))).reverse, rfl⟩

/-- The jar URL split as everything before its last slash, the slash, and
the slash-free (given slash-free parts) filename. -/
theorem artifactJarUrl_data (name r cls : String) :
    (artifactJarUrl name r cls).data =
      ("https://repo1.maven.org/maven2/org/openjfx/".data ++ name.data ++ '/' :: r.data) ++
        '/' :: (name.data ++ '-' :: (r.data ++ '-' :: (cls.data ++ ".jar".data))) := by
  simp only [artifactJarUrl, String.data_append, List.append_assoc, List.cons_append,
    List.singleton_append]
  rfl

/-- The target filename of one artifact, when no component smuggles a
slash: `name ++ "-" ++ version ++ "-" ++ classifier ++ ".jar"`. -/
theorem jarFileName_eq (name r cls : String)
    (hn : ∀ c ∈ name.data, c ≠ '/') (hr : ∀ c ∈ r.data, c ≠ '/')
    (hc : ∀ c ∈ cls.data, c ≠ '/') :
    jarFileName name r cls =
      ⟨name.data ++ '-' :: (r.data ++ '-' :: (cls.data ++ ".jar".data))⟩ := by
  unfold jarFileName
  refine congrArg String.mk ?_
  rw [artifactJarUrl_data]
  apply lastSegment_append
  intro c hcm
  rcases List.mem_append.1 hcm with h | h
  · exact hn c h
  · rcases List.mem_cons.1 h with h | h
    · subst h
      decide
    · rcases List.mem_append.1 h with h | h
      · exact hr c h
      · rcases List.mem_cons.1 h with h | h
        · subst h
          decide
        · rcases List.mem_append.1 h with h | h
          · exact hc c h
          · have hjar : ∀ ch ∈ ".jar".data, ch ≠ '/' := by decide
            exact hjar c h

/-- The target filename always ends in `.jar`, whatever the components. -/
theorem jarFileName_ends (name r cls : String) :
    ∃ pre, (jarFileName name r cls).data = pre ++ ".jar".data := by
  simp only [jarFileName]
  have hurl : (artifactJarUrl name r cls).data =
      (("https://repo1.maven.org/maven2/org/openjfx/".data ++ name.data ++ '/' :: r.data) ++
        '/' :: (name.data ++ '-' :: (r.data ++ '-' :: cls.data))) ++ ".jar".data := by
    rw [artifactJarUrl_data]
    simp [List.append_assoc]
  rw [hurl]
  apply lastSegment_ends
  decide

/-- The staged name always ends in `.tmp`. -/
theorem tempName_ends (x : String) : (tempName x).data = x.data ++ ".tmp".data :=
  String.data_append x ".tmp"

/-- A list ending in `.jar` never equals one ending in `.tmp`. -/
theorem ends_jar_ne_tmp (l1 l2 p1 p2 : List Char)
    (h1 : l1 = p1 ++ ".jar".data) (h2 : l2 = p2 ++ ".tmp".data) : l1 ≠ l2 := by
  intro he
  have hrev : l1.reverse = l2.reverse := congrArg List.reverse he
  rw [h1, h2, List.reverse_append, List.reverse_append] at hrev
  have h3 : ('r' : Char) = 'p' := congrArg (fun l => l.headI) hrev
  exact absurd h3 (by decide)

/-- A final artifact filename is never a staged filename. -/
theorem jar_ne_tempName (n v c x : String) : jarFileName n v c ≠ tempName x := by
  intro h
  obtain ⟨pre, hpre⟩ := jarFileName_ends n v c
  exact ends_jar_ne_tmp _ _ pre x.data hpre (tempName_ends x) (congrArg String.data h)

/-- A staged `.tmp` filename never matches the cache glob. -/
theorem globMatch_tempName (x : String) : globMatch (tempName x) = false := by
  unfold globMatch
  have hrev : (tempName x).data.reverse = 'p' :: 'm' :: 't' :: '.' :: x.data.reverse := by
    rw [tempName_ends, List.reverse_append]
    rfl
  rw [hrev]
  have h2 : startsWithL ".jar".data.reverse ('p' :: 'm' :: 't' :: '.' :: x.data.reverse)
      = false := by
    show (if 'r' = 'p' then startsWithL ['a', 'j', '.'] ('m' :: 't' :: '.' :: x.data.reverse)
      else false) = false
    rw [if_neg (by decide)]
  rw [h2]
  simp

/-- The canonical artifact filename `javafx-<kind>-<r>-<cls>.jar` matches the
cache glob `javafx-*-*.jar`. -/
theorem globMatch_canonical (kind r cls : List Char) :
    globMatch ⟨"javafx-".data ++ (kind ++ '-' :: (r ++ '-' :: (cls ++ ".jar".data)))⟩ = true := by
  unfold globMatch
  have hdata : (⟨"javafx-".data ++ (kind ++ '-' :: (r ++ '-' :: (cls ++ ".jar".data)))⟩ :
      String).data = "javafx-".data ++ (kind ++ '-' :: (r ++ '-' :: (cls ++ ".jar".data))) := rfl
  rw [hdata]
  have h1 : startsWithL "javafx-".data
      ("javafx-".data ++ (kind ++ '-' :: (r ++ '-' :: (cls ++ ".jar".data)))) = true :=
    startsWith_append_self _ _
  have hassoc : "javafx-".data ++ (kind ++ '-' :: (r ++ '-' :: (cls ++ ".jar".data))) =
      ("javafx-".data ++ (kind ++ '-' :: (r ++ '-' :: cls))) ++ ".jar".data := by
    simp [List.append_assoc]
  have h2 : startsWithL ".jar".data.reverse
      ("javafx-".data ++ (kind ++ '-' :: (r ++ '-' :: (cls ++ ".jar".data)))).reverse = true := by
    rw [hassoc, List.reverse_append]
    exact startsWith_append_self _ _
  have h7 : ("javafx-".data ++ (kind ++ '-' :: (r ++ '-' :: (cls ++ ".jar".data)))).drop 7 =
      kind ++ '-' :: (r ++ '-' :: (cls ++ ".jar".data)) := by
    rw [show 7 = "javafx-".data.length from rfl]
    exact List.drop_left _ _
  rw [h7]
  have hlen : (kind ++ '-' :: (r ++ '-' :: (cls ++ ".jar".data))).length =
      kind.length + (r.length + (cls.length + 4) + 1) + 1 := by
    simp [List.length_append, List.length_cons]
    omega
  have h3 : ((kind ++ '-' :: (r ++ '-' :: (cls ++ ".jar".data))).take
      ((kind ++ '-' :: (r ++ '-' :: (cls ++ ".jar".data))).length - 4)).contains '-' = true := by
    rw [hlen]
    have hk : kind.length + (r.length + (cls.length + 4) + 1) + 1 - 4 =
        kind.length + (r.length + cls.length + 1) + 1 := by omega
    rw [hk, List.take_append_eq_append_take,
      List.take_of_length_le (by omega : kind.length ≤
        kind.length + (r.length + cls.length + 1) + 1)]
    have hm : kind.length + (r.length + cls.length + 1) + 1 - kind.length =
        r.length + cls.length + 1 + 1 := by omega
    rw [hm, List.take_succ_cons]
    exact List.elem_iff.2 (List.mem_append_right kind (List.mem_cons_self _ _))
  rw [h1, h2, h3]
  rfl

/-- The cached-file pattern search captures exactly the version component of
a canonical artifact filename, provided kind and version are nonempty and
dash-free. -/
theorem cacheSearch_canonical (cls kind r : List Char)
    (hk : kind ≠ []) (hkd : ∀ c ∈ kind, c ≠ '-')
    (hr : r ≠ []) (hrd : ∀ c ∈ r, c ≠ '-') :
    cacheSearch cls ("javafx-".data ++ (kind ++ '-' :: (r ++ '-' :: (cls ++ ".jar".data)))) =
      some r := by
  have hmatch : cacheMatchAt cls
      ("javafx-".data ++ (kind ++ '-' :: (r ++ '-' :: (cls ++ ".jar".data)))) = some r := by
    unfold cacheMatchAt
    rw [if_pos (startsWith_append_self "javafx-".data _)]
    have h7 : ("javafx-".data ++ (kind ++ '-' :: (r ++ '-' :: (cls ++ ".jar".data)))).drop 7 =
        kind ++ '-' :: (r ++ '-' :: (cls ++ ".jar".data)) := by
      rw [show 7 = "javafx-".data.length from rfl]
      exact List.drop_left _ _
    have htk : (kind ++ '-' :: (r ++ '-' :: (cls ++ ".jar".data))).takeWhile
        (fun ch => ch ≠ '-') = kind := by
      rw [takeWhile_all_append _ kind _ (by
        intro x hx
        simp only [decide_eq_true_eq]
        exact hkd x hx), List.takeWhile_cons_of_neg (by simp), List.append_nil]
    have hdk : (kind ++ '-' :: (r ++ '-' :: (cls ++ ".jar".data))).dropWhile
        (fun ch => ch ≠ '-') = '-' :: (r ++ '-' :: (cls ++ ".jar".data)) := by
      rw [dropWhile_all_append _ kind _ (by
        intro x hx
        simp only [decide_eq_true_eq]
        exact hkd x hx), List.dropWhile_cons_of_neg (by simp)]
    have htr : (r ++ '-' :: (cls ++ ".jar".data)).takeWhile (fun ch => ch ≠ '-') = r := by
      rw [takeWhile_all_append _ r _ (by
        intro x hx
        simp only [decide_eq_true_eq]
        exact hrd x hx), List.takeWhile_cons_of_neg (by simp), List.append_nil]
    have hdr : (r ++ '-' :: (cls ++ ".jar".data)).dropWhile (fun ch => ch ≠ '-') =
        '-' :: (cls ++ ".jar".data) := by
      rw [dropWhile_all_append _ r _ (by
        intro x hx
        simp only [decide_eq_true_eq]
        exact hrd x hx), List.dropWhile_cons_of_neg (by simp)]
    simp only [h7, htk, hdk, htr, hdr]
    simp
    exact ⟨hk, hr⟩
  cases hsplit : "javafx-".data ++ (kind ++ '-' :: (r ++ '-' :: (cls ++ ".jar".data))) with
  | nil => cases hsplit
  | cons c rest =>
    rw [hsplit] at hmatch
    rw [cacheSearch, hmatch]

/-- Each required artifact name is `javafx-` followed by a nonempty dash-free
kind, and contains no slash. -/
theorem artifact_form (name : String) (h : name ∈ ARTIFACT_NAMES) :
    ∃ kind : List Char, name.data = "javafx-".data ++ kind ∧ kind ≠ [] ∧
      (∀ c ∈ kind, c ≠ '-') ∧ (∀ c ∈ name.data, c ≠ '/') := by
  simp only [ARTIFACT_NAMES, List.mem_cons, List.not_mem_nil, or_false] at h
  rcases h with h | h | h | h
  · subst h
    exact ⟨"base".data, by decide, by decide, by decide, by decide⟩
  · subst h
    exact ⟨"graphics".data, by decide, by decide, by decide, by decide⟩
  · subst h
    exact ⟨"controls".data, by decide, by decide, by decide, by decide⟩
  · subst h
    exact ⟨"media".data, by decide, by decide, by decide, by decide⟩

/-- The detected classifier is one of the five table entries. -/
theorem classifier_cases (e : Env) (cls : String) (h : e.classifier = some cls) :
    cls = "win" ∨ cls = "mac-aarch64" ∨ cls = "mac" ∨ cls = "linux-aarch64" ∨ cls = "linux" := by
  unfold Env.classifier detect_system_classifier at h
  by_cases h1 : startsWithL "win".data (lowerAscii e.uname_sysname).data = true
  · rw [if_pos h1] at h
    injection h with h
    exact Or.inl h.symm
  · rw [if_neg h1] at h
    by_cases h2 : lowerAscii e.uname_sysname = "darwin"
    · rw [if_pos h2] at h
      injection h with h
      by_cases h3 : lowerAscii e.uname_machine = "arm64" ∨
          lowerAscii e.uname_machine = "aarch64"
      · rw [if_pos h3] at h
        exact Or.inr (Or.inl h.symm)
      · rw [if_neg h3] at h
        exact Or.inr (Or.inr (Or.inl h.symm))
    · rw [if_neg h2] at h
      by_cases h4 : startsWithL "linux".data (lowerAscii e.uname_sysname).data = true
      · rw [if_pos h4] at h
        injection h with h
        by_cases h5 : lowerAscii e.uname_machine = "arm64" ∨
            lowerAscii e.uname_machine = "aarch64"
        · rw [if_pos h5] at h
          exact Or.inr (Or.inr (Or.inr (Or.inl h.symm)))
        · rw [if_neg h5] at h
          exact Or.inr (Or.inr (Or.inr (Or.inr h.symm)))
      · rw [if_neg h4] at h
        cases h

/-- No classifier string contains a slash. -/
theorem classifier_noSlash (e : Env) (cls : String) (h : e.classifier = some cls) :
    ∀ c ∈ cls.data, c ≠ '/' := by
  rcases classifier_cases e cls h with h | h | h | h | h
  · subst h
    decide
  · subst h
    decide
  · subst h
    decide
  · subst h
    decide
  · subst h
    decide

/-- The cached-file pattern captures exactly the installed version from an
artifact's target filename, and the filename matches the cache glob. -/
theorem target_capture (name r cls : String)
    (hname : name ∈ ARTIFACT_NAMES)
    (hcs : ∀ c ∈ cls.data, c ≠ '/')
    (hrne : r.data ≠ [])
    (hrd : ∀ c ∈ r.data, c ≠ '-')
    (hrs : ∀ c ∈ r.data, c ≠ '/') :
    cacheVersionOf cls (jarFileName name r cls) = some r ∧
      globMatch (jarFileName name r cls) = true := by
  obtain ⟨kind, hkdata, hkne, hkd, hns⟩ := artifact_form name hname
  have heq : jarFileName name r cls =
      ⟨"javafx-".data ++ (kind ++ '-' :: (r.data ++ '-' :: (cls.data ++ ".jar".data)))⟩ := by
    rw [jarFileName_eq name r cls hns hrs hcs]
    refine congrArg String.mk ?_
    rw [hkdata, List.append_assoc]
  constructor
  · rw [heq]
    unfold cacheVersionOf
    have hs : cacheSearch cls.data
        ((⟨"javafx-".data ++ (kind ++ '-' :: (r.data ++ '-' :: (cls.data ++ ".jar".data)))⟩ :
          String).data) = some r.data := by
      show cacheSearch cls.data
        ("javafx-".data ++ (kind ++ '-' :: (r.data ++ '-' :: (cls.data ++ ".jar".data)))) =
        some r.data
      exact cacheSearch_canonical cls.data kind r.data hkne hkd hrne hrd
    rw [hs]
  · rw [heq]
    exact globMatch_canonical kind r.data cls.data

/-- Distinct artifact names yield distinct target filenames. -/
theorem jarFileName_inj (n1 n2 r cls : String)
    (h1 : ∀ c ∈ n1.data, c ≠ '/') (h2 : ∀ c ∈ n2.data, c ≠ '/')
    (hr : ∀ c ∈ r.data, c ≠ '/') (hc : ∀ c ∈ cls.data, c ≠ '/')
    (he : jarFileName n1 r cls = jarFileName n2 r cls) : n1 = n2 := by
  rw [jarFileName_eq n1 r cls h1 hr hc, jarFileName_eq n2 r cls h2 hr hc] at he
  have hd : n1.data ++ '-' :: (r.data ++ '-' :: (cls.data ++ ".jar".data)) =
      n2.data ++ '-' :: (r.data ++ '-' :: (cls.data ++ ".jar".data)) := congrArg String.data he
  have hdd : n1.data = n2.data := List.append_cancel_right hd
  cases n1
  cases n2
  exact congrArg String.mk hdd

theorem bump_lookupCount :
    ∀ (acc : List (String × Nat)) (w v : String),
      lookupCount (bump w acc) v =
        if w = v then lookupCount acc v + 1 else lookupCount acc v := by
  intro acc
  induction acc with
  | nil =>
    intro w v
    by_cases h : w = v
    · rw [if_pos h]
      show (if w = v then 1 else 0) = 0 + 1
      rw [if_pos h]
    · rw [if_neg h]
      show (if w = v then 1 else 0) = 0
      rw [if_neg h]
  | cons p rest ih =>
    intro w v
    rcases p with ⟨w0, n0⟩
    show lookupCount (if w0 = w then (w0, n0 + 1) :: rest else (w0, n0) :: bump w rest) v = _
    by_cases h0 : w0 = w
    · rw [if_pos h0]
      subst h0
      by_cases hv : w0 = v
      · show (if w0 = v then n0 + 1 else lookupCount rest v) = _
        rw [if_pos hv, if_pos hv]
        show n0 + 1 = (if w0 = v then n0 else lookupCount rest v) + 1
        rw [if_pos hv]
      · show (if w0 = v then n0 + 1 else lookupCount rest v) = _
        rw [if_neg hv, if_neg hv]
        show lookupCount rest v = (if w0 = v then n0 else lookupCount rest v)
        rw [if_neg hv]
    · rw [if_neg h0]
      show (if w0 = v then n0 else lookupCount (bump w rest) v) = _
      by_cases hv : w0 = v
      · rw [if_pos hv]
        have hwv : ¬ w = v := fun h => h0 (hv ▸ h.symm ▸ rfl)
        rw [if_neg hwv]
        show n0 = (if w0 = v then n0 else lookupCount rest v)
        rw [if_pos hv]
      · rw [if_neg hv, ih w v]
        by_cases hwv : w = v
        · rw [if_pos hwv, if_pos hwv]
          show lookupCount rest v + 1 = (if w0 = v then n0 else lookupCount rest v) + 1
          rw [if_neg hv]
        · rw [if_neg hwv, if_neg hwv]
          show lookupCount rest v = (if w0 = v then n0 else lookupCount rest v)
          rw [if_neg hv]

theorem bump_keys :
    ∀ (acc : List (String × Nat)) (w v : String),
      (v ∈ (bump w acc).map Prod.fst ↔ v = w ∨ v ∈ acc.map Prod.fst) := by
  intro acc
  induction acc with
  | nil =>
    intro w v
    show v ∈ [w] ↔ _
    simp
  | cons p rest ih =>
    intro w v
    rcases p with ⟨w0, n0⟩
    show v ∈ (if w0 = w then (w0, n0 + 1) :: rest else (w0, n0) :: bump w rest).map Prod.fst ↔ _
    by_cases h0 : w0 = w
    · rw [if_pos h0]
      subst h0
      show v ∈ w0 :: rest.map Prod.fst ↔ _
      simp only [List.mem_cons, List.map_cons]
      constructor
      · rintro (h | h)
        · exact Or.inl h
        · exact Or.inr (Or.inr h)
      · rintro (h | h | h)
        · exact Or.inl h
        · exact Or.inl h
        · exact Or.inr h
    · rw [if_neg h0]
      show v ∈ w0 :: (bump w rest).map Prod.fst ↔ _
      simp only [List.mem_cons, ih w v, List.map_cons]
      tauto

theorem bump_keys_nodup :
    ∀ (acc : List (String × Nat)) (w : String),
      (acc.map Prod.fst).Nodup → ((bump w acc).map Prod.fst).Nodup := by
  intro acc
  induction acc with
  | nil =>
    intro w _
    simp [bump]
  | cons p rest ih =>
    intro w h
    rcases p with ⟨w0, n0⟩
    rw [List.map_cons, List.nodup_cons] at h
    show ((if w0 = w then (w0, n0 + 1) :: rest else (w0, n0) :: bump w rest).map Prod.fst).Nodup
    by_cases h0 : w0 = w
    · rw [if_pos h0]
      rw [List.map_cons, List.nodup_cons]
      exact h
    · rw [if_neg h0]
      rw [List.map_cons, List.nodup_cons]
      refine ⟨?_, ih w h.2⟩
      intro hmem
      rcases (bump_keys rest w w0).1 hmem with hh | hh
      · exact h0 hh
      · exact h.1 hh

theorem tally_fold_lookupCount :
    ∀ (caps : List String) (acc : List (String × Nat)) (v : String),
      lookupCount (caps.foldl (fun a w => bump w a) acc) v =
        lookupCount acc v + caps.count v := by
  intro caps
  induction caps with
  | nil =>
    intro acc v
    simp
  | cons w caps ih =>
    intro acc v
    rw [List.foldl_cons, ih, bump_lookupCount]
    by_cases h : w = v
    · rw [if_pos h]
      have : (w :: caps).count v = caps.count v + 1 := by
        simp [List.count_cons, h]
      rw [this]
      omega
    · rw [if_neg h]
      have : (w :: caps).count v = caps.count v := by
        simp [List.count_cons]
        intro hb
        exact absurd hb h
      rw [this]

theorem tally_fold_keys_nodup :
    ∀ (caps : List String) (acc : List (String × Nat)),
      (acc.map Prod.fst).Nodup →
      ((caps.foldl (fun a w => bump w a) acc).map Prod.fst).Nodup := by
  intro caps
  induction caps with
  | nil =>
    intro acc h
    exact h
  | cons w caps ih =>
    intro acc h
    rw [List.foldl_cons]
    exact ih _ (bump_keys_nodup acc w h)

theorem tally_fold_keys_mem :
    ∀ (caps : List String) (acc : List (String × Nat)) (v : String),
      (v ∈ (caps.foldl (fun a w => bump w a) acc).map Prod.fst ↔
        v ∈ acc.map Prod.fst ∨ v ∈ caps) := by
  intro caps
  induction caps with
  | nil =>
    intro acc v
    simp
  | cons w caps ih =>
    intro acc v
    rw [List.foldl_cons, ih, bump_keys]
    simp only [List.mem_cons]
    tauto

theorem mem_of_keysNodup :
    ∀ (acc : List (String × Nat)) (v : String) (n : Nat),
      (acc.map Prod.fst).Nodup →
      ((v, n) ∈ acc ↔ (v ∈ acc.map Prod.fst ∧ lookupCount acc v = n)) := by
  intro acc
  induction acc with
  | nil =>
    intro v n _
    simp
  | cons p rest ih =>
    intro v n h
    rcases p with ⟨w0, n0⟩
    rw [List.map_cons, List.nodup_cons] at h
    constructor
    · intro hmem
      rcases List.mem_cons.1 hmem with hh | hh
      · injection hh with hh1 hh2
        subst hh1
        subst hh2
        refine ⟨List.mem_cons_self _ _, ?_⟩
        show (if v = v then n else lookupCount rest v) = n
        rw [if_pos rfl]
      · have hv : v ∈ rest.map Prod.fst := List.mem_map.2 ⟨(v, n), hh, rfl⟩
        have hne : w0 ≠ v := fun he => h.1 (he ▸ hv)
        obtain ⟨_, hlc⟩ := (ih v n h.2).1 hh
        refine ⟨List.mem_cons_of_mem _ hv, ?_⟩
        show (if w0 = v then n0 else lookupCount rest v) = n
        rw [if_neg hne]
        exact hlc
    · rintro ⟨hmem, hlc⟩
      rcases List.mem_cons.1 hmem with hh | hh
      · subst hh
        show _ ∈ _
        have : lookupCount ((v, n0) :: rest) v = n0 := by
          show (if v = v then n0 else lookupCount rest v) = n0
          rw [if_pos rfl]
        rw [this] at hlc
        subst hlc
        exact List.mem_cons_self _ _
      · have hne : w0 ≠ v := fun he => h.1 (he ▸ hh)
        have hlc2 : lookupCount rest v = n := by
          have : lookupCount ((w0, n0) :: rest) v = lookupCount rest v := by
            show (if w0 = v then n0 else lookupCount rest v) = lookupCount rest v
            rw [if_neg hne]
          rw [this] at hlc
          exact hlc
        exact List.mem_cons_of_mem _ ((ih v n h.2).2 ⟨hh, hlc2⟩)

/-- A version is complete exactly when the scan captured it at least four
times (once per required artifact kind). -/
theorem mem_completeVersions_iff (caps : List String) (v : String) :
    v ∈ completeVersions caps ↔ ARTIFACT_NAMES.length ≤ caps.count v := by
  unfold completeVersions tally
  have hnodup : ((caps.foldl (fun a w => bump w a) ([] : List (String × Nat))).map
      Prod.fst).Nodup := tally_fold_keys_nodup caps [] (by simp)
  constructor
  · intro h
    obtain ⟨p, hmemp, hifp⟩ := List.mem_filterMap.1 h
    rcases p with ⟨w, n⟩
    have hif : (if ARTIFACT_NAMES.length ≤ n then some w else none) = some v := hifp
    have hmem : (w, n) ∈ caps.foldl (fun a u => bump u a) [] := hmemp
    by_cases h4 : ARTIFACT_NAMES.length ≤ n
    · rw [if_pos h4] at hif
      injection hif with hif
      obtain ⟨_, hlc⟩ := (mem_of_keysNodup _ w n hnodup).1 hmem
      rw [tally_fold_lookupCount caps [] w] at hlc
      simp only [lookupCount] at hlc
      subst hif
      show ARTIFACT_NAMES.length ≤ caps.count w
      omega
    · rw [if_neg h4] at hif
      cases hif
  · intro h4
    have hpos : 0 < caps.count v := by
      have : 0 < ARTIFACT_NAMES.length := by decide
      omega
    have hvin : v ∈ caps := List.count_pos_iff.1 hpos
    have hkey : v ∈ (caps.foldl (fun a w => bump w a) []).map Prod.fst :=
      (tally_fold_keys_mem caps [] v).2 (Or.inr hvin)
    have hlc : lookupCount (caps.foldl (fun a w => bump w a) []) v = caps.count v := by
      rw [tally_fold_lookupCount caps [] v]
      simp [lookupCount]
    have hmem : (v, caps.count v) ∈ caps.foldl (fun a w => bump w a) [] :=
      (mem_of_keysNodup _ v (caps.count v) hnodup).2 ⟨hkey, hlc⟩
    exact List.mem_filterMap.2 ⟨(v, caps.count v), hmem, by rw [if_pos h4]⟩

theorem count_filterMap (f : String → Option String) :
    ∀ (l : List String) (y : String),
      (l.filterMap f).count y = l.countP (fun a => f a == some y) := by
  intro l
  induction l with
  | nil =>
    intro y
    rfl
  | cons a l ih =>
    intro y
    rw [List.filterMap_cons]
    cases hfa : f a with
    | none =>
      rw [List.countP_cons, hfa, ih]
      have hopt : ((none : Option String) == some y) = false := rfl
      rw [hopt]
      simp
    | some b =>
      rw [List.countP_cons, hfa, List.count_cons, ih]
      have hopt : ((some b == some y)) = (b == y) := rfl
      rw [hopt]

/-- The capture count of a version over a name listing, as a predicate
count. -/
theorem cacheCaps_count (cls : String) (names : List String) (v : String) :
    (cacheCaps cls names).count v =
      names.countP (fun nm => (cacheVersionOf cls nm == some v) && globMatch nm) := by
  unfold cacheCaps
  rw [count_filterMap, List.countP_filter]

theorem countP_ge_of_nodup_mem (ts l : List String) (p : String → Bool)
    (hnd : ts.Nodup) (hmem : ∀ t ∈ ts, t ∈ l ∧ p t = true) : ts.length ≤ l.countP p := by
  rw [List.countP_eq_length_filter]
  have hsub : ∀ t ∈ ts, t ∈ l.filter p := fun t ht =>
    List.mem_filter.2 ⟨(hmem t ht).1, (hmem t ht).2⟩
  calc ts.length = ts.toFinset.card := (List.toFinset_card_of_nodup hnd).symm
    _ ≤ (l.filter p).toFinset.card := Finset.card_le_card (by
        intro t ht
        rw [List.mem_toFinset] at ht ⊢
        exact hsub t ht)
    _ ≤ (l.filter p).length := (l.filter p).toFinset_card_le

theorem countP_le_transfer (l1 l2 : List String) (p : String → Bool)
    (hnd : l1.Nodup) (htr : ∀ x ∈ l1, p x = true → x ∈ l2) :
    l1.countP p ≤ l2.countP p := by
  rw [List.countP_eq_length_filter, List.countP_eq_length_filter]
  calc (l1.filter p).length = (l1.filter p).toFinset.card :=
      (List.toFinset_card_of_nodup (hnd.filter p)).symm
    _ ≤ (l2.filter p).toFinset.card := Finset.card_le_card (by
        intro x hx
        rw [List.mem_toFinset] at hx ⊢
        obtain ⟨hx1, hx2⟩ := List.mem_filter.1 hx
        exact List.mem_filter.2 ⟨htr x hx1 hx2, hx2⟩)
    _ ≤ (l2.filter p).length := (l2.filter p).toFinset_card_le

theorem dedupFirstAux_nodup : ∀ (l seen : List String), (dedupFirstAux l seen).Nodup := by
  intro l
  induction l with
  | nil =>
    intro seen
    simp [dedupFirstAux]
  | cons x xs ih =>
    intro seen
    rw [dedupFirstAux]
    split
    · exact ih _
    · refine List.nodup_cons.2 ⟨?_, ih _⟩
      intro hmem
      exact ((mem_dedupFirstAux x xs (x :: seen)).1 hmem).2 (List.mem_cons_self x seen)

/-- The store's name listing has no duplicates. -/
theorem FS.names_nodup (fs : FS) : fs.names.Nodup := dedupFirstAux_nodup _ _

theorem FS.lookup_write_isSome (fs : FS) (k nm : String) (v : List Nat)
    (h : (fs.lookup nm).isSome = true) : ((fs.write k v).lookup nm).isSome = true := by
  by_cases hk : nm = k
  · subst hk
    rw [FS.lookup_write_self]
    rfl
  · rw [FS.lookup_write_other fs k nm v hk]
    exact h

theorem oneAttempt_target_isSome (e : Env) (jar_url sha_url target temp : String) (i : Nat)
    (fs : FS) (log : Log) (fs2 : FS) (log2 : Log)
    (h : oneAttempt e jar_url sha_url target temp i fs log = (true, fs2, log2)) :
    (fs2.lookup target).isSome = true := by
  unfold oneAttempt at h
  cases hsha : e.net sha_url
  · simp only [hsha] at h
    exact absurd (congrArg (fun t => t.1) h : false = true) (by decide)
  · rename_i sb
    simp only [hsha] at h
    cases hdec : decodeStrip sb
    · simp only [hdec] at h
      exact absurd (congrArg (fun t => t.1) h : false = true) (by decide)
    · rename_i s
      simp only [hdec] at h
      cases hjar : e.net jar_url
      · simp only [hjar] at h
        exact absurd (congrArg (fun t => t.1) h : false = true) (by decide)
      · rename_i data
        simp only [hjar] at h
        by_cases hhash : e.sha1hex data = s
        · rw [if_pos hhash] at h
          by_cases htw : e.tmpWriteFail target i = true
          · rw [if_pos htw] at h
            exact absurd (congrArg (fun t => t.1) h : false = true) (by decide)
          · rw [if_neg htw] at h
            by_cases hrf : e.replaceFail target i = true
            · rw [if_pos hrf] at h
              exact absurd (congrArg (fun t => t.1) h : false = true) (by decide)
            · rw [if_neg hrf] at h
              have hfs : ((fs.write temp data).remove temp).write target data = fs2 :=
                congrArg (fun t => t.2.1) h
              rw [← hfs, FS.lookup_write_self]
              rfl
        · rw [if_neg hhash] at h
          exact absurd (congrArg (fun t => t.1) h : false = true) (by decide)

theorem oneAttempt_keeps (e : Env) (jar_url sha_url target temp : String) (i : Nat)
    (fs : FS) (log : Log) (ok : Bool) (fs2 : FS) (log2 : Log) (nm : String)
    (hnm : nm ≠ temp) (hs : (fs.lookup nm).isSome = true)
    (h : oneAttempt e jar_url sha_url target temp i fs log = (ok, fs2, log2)) :
    (fs2.lookup nm).isSome = true := by
  unfold oneAttempt at h
  cases hsha : e.net sha_url
  · simp only [hsha] at h
    have hfs : fs = fs2 := congrArg (fun t => t.2.1) h
    rw [← hfs]
    exact hs
  · rename_i sb
    simp only [hsha] at h
    cases hdec : decodeStrip sb
    · simp only [hdec] at h
      have hfs : fs = fs2 := congrArg (fun t => t.2.1) h
      rw [← hfs]
      exact hs
    · rename_i s
      simp only [hdec] at h
      cases hjar : e.net jar_url
      · simp only [hjar] at h
        have hfs : fs = fs2 := congrArg (fun t => t.2.1) h
        rw [← hfs]
        exact hs
      · rename_i data
        simp only [hjar] at h
        by_cases hhash : e.sha1hex data = s
        · rw [if_pos hhash] at h
          by_cases htw : e.tmpWriteFail target i = true
          · rw [if_pos htw] at h
            have hfs : fs = fs2 := congrArg (fun t => t.2.1) h
            rw [← hfs]
            exact hs
          · rw [if_neg htw] at h
            by_cases hrf : e.replaceFail target i = true
            · rw [if_pos hrf] at h
              have hfs : fs.write temp data = fs2 := congrArg (fun t => t.2.1) h
              rw [← hfs]
              exact FS.lookup_write_isSome fs temp nm data hs
            · rw [if_neg hrf] at h
              have hfs : ((fs.write temp data).remove temp).write target data = fs2 :=
                congrArg (fun t => t.2.1) h
              rw [← hfs]
              by_cases hnt : nm = target
              · subst hnt
                rw [FS.lookup_write_self]
                rfl
              · rw [FS.lookup_write_other _ _ _ _ hnt, FS.lookup_remove_eq, if_neg hnm]
                exact FS.lookup_write_isSome fs temp nm data hs
        · rw [if_neg hhash] at h
          have hfs : fs = fs2 := congrArg (fun t => t.2.1) h
          rw [← hfs]
          exact hs

theorem fetchAttempts_target_isSome (e : Env) (jar_url sha_url target temp : String) :
    ∀ rem i fs log fs2 log2,
      fetchAttempts e jar_url sha_url target temp i rem fs log = (true, fs2, log2) →
      (fs2.lookup target).isSome = true := by
  intro rem
  induction rem with
  | zero =>
    intro i fs log fs2 log2 h
    exact absurd (congrArg (fun t => t.1) h : false = true) (by decide)
  | succ rem ih =>
    intro i fs log fs2 log2 h
    rw [fetchAttempts] at h
    rcases ha : oneAttempt e jar_url sha_url target temp i fs log with ⟨ok1, fsa, loga⟩
    rw [ha] at h
    cases ok1
    · exact ih (i + 1) fsa loga fs2 log2 h
    · have hfs : fsa = fs2 := congrArg (fun t => t.2.1) h
      rw [← hfs]
      exact oneAttempt_target_isSome e jar_url sha_url target temp i fs log fsa loga ha

theorem fetchAttempts_keeps (e : Env) (jar_url sha_url target temp : String) (nm : String)
    (hnm : nm ≠ temp) :
    ∀ rem i fs log ok fs2 log2,
      fetchAttempts e jar_url sha_url target temp i rem fs log = (ok, fs2, log2) →
      (fs.lookup nm).isSome = true → (fs2.lookup nm).isSome = true := by
  intro rem
  induction rem with
  | zero =>
    intro i fs log ok fs2 log2 h hs
    have hfs : fs = fs2 := congrArg (fun t => t.2.1) h
    rw [← hfs]
    exact hs
  | succ rem ih =>
    intro i fs log ok fs2 log2 h hs
    rw [fetchAttempts] at h
    rcases ha : oneAttempt e jar_url sha_url target temp i fs log with ⟨ok1, fsa, loga⟩
    rw [ha] at h
    cases ok1
    · exact ih (i + 1) fsa loga ok fs2 log2 h
        (oneAttempt_keeps e jar_url sha_url target temp i fs log false fsa loga nm hnm hs ha)
    · have hfs : fsa = fs2 := congrArg (fun t => t.2.1) h
      rw [← hfs]
      exact oneAttempt_keeps e jar_url sha_url target temp i fs log true fsa loga nm hnm hs ha

theorem fetchOne_target_isSome (e : Env) (force : Bool) (cls desired name : String)
    (fs : FS) (log : Log) (fs2 : FS) (log2 : Log)
    (h : fetchOne e force cls desired name fs log = (true, fs2, log2)) :
    (fs2.lookup (jarFileName name desired cls)).isSome = true := by
  unfold fetchOne at h
  by_cases hc : force = false ∧ (fs.lookup (jarFileName name desired cls)).isSome = true
  · rw [if_pos hc] at h
    rcases hv : _validate_cached_file e fs (jarFileName name desired cls)
        (artifactShaUrl name desired cls) log with ⟨vb, vlog⟩
    rw [hv] at h
    cases vb
    · exact fetchAttempts_target_isSome e _ _ _ _ 5 0 fs vlog fs2 log2 h
    · have hfs : fs = fs2 := congrArg (fun t => t.2.1) h
      rw [← hfs]
      exact hc.2
  · rw [if_neg hc] at h
    exact fetchAttempts_target_isSome e _ _ _ _ 5 0 fs log fs2 log2 h

theorem fetchOne_keeps (e : Env) (force : Bool) (cls desired name : String)
    (fs : FS) (log : Log) (ok : Bool) (fs2 : FS) (log2 : Log) (nm : String)
    (hnm : nm ≠ tempName (jarFileName name desired cls))
    (hs : (fs.lookup nm).isSome = true)
    (h : fetchOne e force cls desired name fs log = (ok, fs2, log2)) :
    (fs2.lookup nm).isSome = true := by
  unfold fetchOne at h
  by_cases hc : force = false ∧ (fs.lookup (jarFileName name desired cls)).isSome = true
  · rw [if_pos hc] at h
    rcases hv : _validate_cached_file e fs (jarFileName name desired cls)
        (artifactShaUrl name desired cls) log with ⟨vb, vlog⟩
    rw [hv] at h
    cases vb
    · exact fetchAttempts_keeps e _ _ _ _ nm hnm 5 0 fs vlog ok fs2 log2 h hs
    · have hfs : fs = fs2 := congrArg (fun t => t.2.1) h
      rw [← hfs]
      exact hs
  · rw [if_neg hc] at h
    exact fetchAttempts_keeps e _ _ _ _ nm hnm 5 0 fs log ok fs2 log2 h hs

theorem fetchAll_keeps (e : Env) (force : Bool) (cls desired : String) (nm : String) :
    ∀ names fs log ok fs2 log2,
      fetchAll e force cls desired names fs log = (ok, fs2, log2) →
      (∀ name ∈ names, nm ≠ tempName (jarFileName name desired cls)) →
      (fs.lookup nm).isSome = true → (fs2.lookup nm).isSome = true := by
  intro names
  induction names with
  | nil =>
    intro fs log ok fs2 log2 h _ hs
    have hfs : fs = fs2 := congrArg (fun t => t.2.1) h
    rw [← hfs]
    exact hs
  | cons a rest ih =>
    intro fs log ok fs2 log2 h hnm hs
    rw [fetchAll] at h
    rcases ha : fetchOne e force cls desired a fs log with ⟨ok1, fsa, loga⟩
    rw [ha] at h
    have hsa : (fsa.lookup nm).isSome = true :=
      fetchOne_keeps e force cls desired a fs log ok1 fsa loga nm
        (hnm a (List.mem_cons_self a rest)) hs ha
    cases ok1
    · have hfs : fsa = fs2 := congrArg (fun t => t.2.1) h
      rw [← hfs]
      exact hsa
    · exact ih fsa loga ok fs2 log2 h (fun name hn => hnm name (List.mem_cons_of_mem a hn)) hsa

/-- A successful fetch pass leaves every requested artifact's target file
present in the store. -/
theorem fetchAll_targets (e : Env) (force : Bool) (cls desired : String) :
    ∀ names fs log fs2 log2,
      fetchAll e force cls desired names fs log = (true, fs2, log2) →
      ∀ name ∈ names, (fs2.lookup (jarFileName name desired cls)).isSome = true := by
  intro names
  induction names with
  | nil =>
    intro fs log fs2 log2 _ name hn
    cases hn
  | cons a rest ih =>
    intro fs log fs2 log2 h name hn
    rw [fetchAll] at h
    rcases ha : fetchOne e force cls desired a fs log with ⟨ok1, fsa, loga⟩
    rw [ha] at h
    cases ok1
    · exact absurd (congrArg (fun t => t.1) h : false = true) (by decide)
    · rcases List.mem_cons.1 hn with hname | hname
      · subst hname
        exact fetchAll_keeps e force cls desired (jarFileName name desired cls) rest fsa loga
          true fs2 log2 h (fun name2 _ => jar_ne_tempName name desired cls _)
          (fetchOne_target_isSome e force cls desired name fs log fsa loga ha)
      · exact ih fsa loga fs2 log2 h name hname

theorem oneAttempt_dirExists (e : Env) (jar_url sha_url target temp : String) (i : Nat)
    (fs : FS) (log : Log) (ok : Bool) (fs2 : FS) (log2 : Log)
    (h : oneAttempt e jar_url sha_url target temp i fs log = (ok, fs2, log2)) :
    fs2.dirExists = fs.dirExists := by
  unfold oneAttempt at h
  cases hsha : e.net sha_url
  · simp only [hsha] at h
    have hfs : fs = fs2 := congrArg (fun t => t.2.1) h
    rw [← hfs]
  · rename_i sb
    simp only [hsha] at h
    cases hdec : decodeStrip sb
    · simp only [hdec] at h
      have hfs : fs = fs2 := congrArg (fun t => t.2.1) h
      rw [← hfs]
    · rename_i s
      simp only [hdec] at h
      cases hjar : e.net jar_url
      · simp only [hjar] at h
        have hfs : fs = fs2 := congrArg (fun t => t.2.1) h
        rw [← hfs]
      · rename_i data
        simp only [hjar] at h
        by_cases hhash : e.sha1hex data = s
        · rw [if_pos hhash] at h
          by_cases htw : e.tmpWriteFail target i = true
          · rw [if_pos htw] at h
            have hfs : fs = fs2 := congrArg (fun t => t.2.1) h
            rw [← hfs]
          · rw [if_neg htw] at h
            by_cases hrf : e.replaceFail target i = true
            · rw [if_pos hrf] at h
              have hfs : fs.write temp data = fs2 := congrArg (fun t => t.2.1) h
              rw [← hfs]
              rfl
            · rw [if_neg hrf] at h
              have hfs : ((fs.write temp data).remove temp).write target data = fs2 :=
                congrArg (fun t => t.2.1) h
              rw [← hfs]
              rfl
        · rw [if_neg hhash] at h
          have hfs : fs = fs2 := congrArg (fun t => t.2.1) h
          rw [← hfs]

theorem fetchAttempts_dirExists (e : Env) (jar_url sha_url target temp : String) :
    ∀ rem i fs log ok fs2 log2,
      fetchAttempts e jar_url sha_url target temp i rem fs log = (ok, fs2, log2) →
      fs2.dirExists = fs.dirExists := by
  intro rem
  induction rem with
  | zero =>
    intro i fs log ok fs2 log2 h
    have hfs : fs = fs2 := congrArg (fun t => t.2.1) h
    rw [← hfs]
  | succ rem ih =>
    intro i fs log ok fs2 log2 h
    rw [fetchAttempts] at h
    rcases ha : oneAttempt e jar_url sha_url target temp i fs log with ⟨ok1, fsa, loga⟩
    rw [ha] at h
    cases ok1
    · rw [ih (i + 1) fsa loga ok fs2 log2 h]
      exact oneAttempt_dirExists e jar_url sha_url target temp i fs log false fsa loga ha
    · have hfs : fsa = fs2 := congrArg (fun t => t.2.1) h
      rw [← hfs]
      exact oneAttempt_dirExists e jar_url sha_url target temp i fs log true fsa loga ha

theorem fetchOne_dirExists (e : Env) (force : Bool) (cls desired name : String)
    (fs : FS) (log : Log) (ok : Bool) (fs2 : FS) (log2 : Log)
    (h : fetchOne e force cls desired name fs log = (ok, fs2, log2)) :
    fs2.dirExists = fs.dirExists := by
  unfold fetchOne at h
  by_cases hc : force = false ∧ (fs.lookup (jarFileName name desired cls)).isSome = true
  · rw [if_pos hc] at h
    rcases hv : _validate_cached_file e fs (jarFileName name desired cls)
        (artifactShaUrl name desired cls) log with ⟨vb, vlog⟩
    rw [hv] at h
    cases vb
    · exact fetchAttempts_dirExists e _ _ _ _ 5 0 fs vlog ok fs2 log2 h
    · have hfs : fs = fs2 := congrArg (fun t => t.2.1) h
      rw [← hfs]
  · rw [if_neg hc] at h
    exact fetchAttempts_dirExists e _ _ _ _ 5 0 fs log ok fs2 log2 h

theorem fetchAll_dirExists (e : Env) (force : Bool) (cls desired : String) :
    ∀ names fs log ok fs2 log2,
      fetchAll e force cls desired names fs log = (ok, fs2, log2) →
      fs2.dirExists = fs.dirExists := by
  intro names
  induction names with
  | nil =>
    intro fs log ok fs2 log2 h
    have hfs : fs = fs2 := congrArg (fun t => t.2.1) h
    rw [← hfs]
  | cons a rest ih =>
    intro fs log ok fs2 log2 h
    rw [fetchAll] at h
    rcases ha : fetchOne e force cls desired a fs log with ⟨ok1, fsa, loga⟩
    rw [ha] at h
    cases ok1
    · have hfs : fsa = fs2 := congrArg (fun t => t.2.1) h
      rw [← hfs]
      exact fetchOne_dirExists e force cls desired a fs log false fsa loga ha
    · rw [ih fsa loga ok fs2 log2 h]
      exact fetchOne_dirExists e force cls desired a fs log true fsa loga ha

theorem keyCmp_nlt_lt_trans (a b c : VKey)
    (h1 : keyCmp a b ≠ .lt) (h2 : keyCmp a c = .lt) : keyCmp b c = .lt := by
  cases h3 : keyCmp a b with
  | lt => exact absurd h3 h1
  | eq =>
    have hab : a = b := (keyCmp_eq_iff a b).1 h3
    rw [← hab]
    exact h2
  | gt =>
    have hba : keyCmp b a = .lt := by
      have hsw := keyCmp_swap a b
      rw [h3] at hsw
      exact hsw
    exact keyCmp_lt_trans b a c hba h2

theorem keyCmp_nlt_trans (a b c : VKey)
    (h1 : keyCmp a b ≠ .lt) (h2 : keyCmp b c ≠ .lt) : keyCmp a c ≠ .lt := by
  intro hac
  exact h2 (keyCmp_nlt_lt_trans a b c h1 hac)

/-- What Python `max(..., key=_version_key)` returns: an element of the list
whose key is no smaller than any other element's key (every key must
exist). -/
theorem maxByKeyAux_spec :
    ∀ (rest : List String) (best : String) (bk : VKey) (out : String),
      _version_key best = some bk →
      maxByKeyAux best bk rest = .ok out →
      (out = best ∨ out ∈ rest) ∧
        ∃ ko, _version_key out = some ko ∧ keyCmp ko bk ≠ .lt ∧
          ∀ u ∈ rest, ∃ ku, _version_key u = some ku ∧ keyCmp ko ku ≠ .lt := by
  intro rest
  induction rest with
  | nil =>
    intro best bk out hb h
    have hout : best = out := by injection h
    subst hout
    refine ⟨Or.inl rfl, bk, hb, ?_, ?_⟩
    · rw [keyCmp_self]
      decide
    · intro u hu
      cases hu
  | cons v rest ih =>
    intro best bk out hb h
    rw [maxByKeyAux] at h
    cases hkv : _version_key v with
    | none =>
      simp only [hkv] at h
      cases h
    | some k =>
      simp only [hkv] at h
      by_cases hcmp : keyCmp bk k = .lt
      · rw [if_pos hcmp] at h
        obtain ⟨hmem, ko, hko, hkbk, hall⟩ := ih v k out hkv h
        refine ⟨?_, ko, hko, ?_, ?_⟩
        · rcases hmem with hh | hh
          · exact Or.inr (by rw [hh]; exact List.mem_cons_self v rest)
          · exact Or.inr (List.mem_cons_of_mem v hh)
        · intro hlt
          exact hkbk (keyCmp_lt_trans ko bk k hlt hcmp)
        · intro u hu
          rcases List.mem_cons.1 hu with hh | hh
          · subst hh
            exact ⟨k, hkv, hkbk⟩
          · exact hall u hh
      · rw [if_neg hcmp] at h
        obtain ⟨hmem, ko, hko, hkbk, hall⟩ := ih best bk out hb h
        refine ⟨?_, ko, hko, hkbk, ?_⟩
        · rcases hmem with hh | hh
          · exact Or.inl hh
          · exact Or.inr (List.mem_cons_of_mem v hh)
        · intro u hu
          rcases List.mem_cons.1 hu with hh | hh
          · subst hh
            exact ⟨k, hkv, keyCmp_nlt_trans ko bk k hkbk hcmp⟩
          · exact hall u hh

theorem maxByKey_spec (v : String) (rest : List String) (out : String)
    (h : maxByKey v rest = .ok out) :
    out ∈ v :: rest ∧ ∃ ko, _version_key out = some ko ∧
      ∀ u ∈ v :: rest, ∃ ku, _version_key u = some ku ∧ keyCmp ko ku ≠ .lt := by
  unfold maxByKey at h
  cases hkv : _version_key v with
  | none =>
    simp only [hkv] at h
    cases h
  | some k =>
    simp only [hkv] at h
    obtain ⟨hmem, ko, hko, hkbk, hall⟩ := maxByKeyAux_spec rest v k out hkv h
    refine ⟨?_, ko, hko, ?_⟩
    · rcases hmem with hh | hh
      · rw [hh]
        exact List.mem_cons_self v rest
      · exact List.mem_cons_of_mem v hh
    · intro u hu
      rcases List.mem_cons.1 hu with hh | hh
      · subst hh
        exact ⟨k, hkv, hkbk⟩
      · exact hall u hh

theorem maxByKeyAux_max (r : String) (kr : VKey) (hkr : _version_key r = some kr) :
    ∀ (rest : List String) (best : String) (bk : VKey),
      (∀ u ∈ rest, u = r ∨ ∃ ku, _version_key u = some ku ∧ keyCmp ku kr = .lt) →
      ((best = r ∧ bk = kr) ∨ (keyCmp bk kr = .lt ∧ r ∈ rest)) →
      maxByKeyAux best bk rest = .ok r := by
  intro rest
  induction rest with
  | nil =>
    intro best bk _ hinv
    rcases hinv with ⟨hb, _⟩ | ⟨_, hin⟩
    · rw [maxByKeyAux, hb]
    · cases hin
  | cons u rest ih =>
    intro best bk hall hinv
    rw [maxByKeyAux]
    rcases hall u (List.mem_cons_self u rest) with hu | ⟨ku, hku, hlt⟩
    · subst hu
      simp only [hkr]
      rcases hinv with ⟨hb, hbk⟩ | ⟨hbk, _⟩
      · subst hb
        subst hbk
        rw [if_neg (by rw [keyCmp_self]; decide)]
        exact ih _ _ (fun x hx => hall x (List.mem_cons_of_mem _ hx)) (Or.inl ⟨rfl, rfl⟩)
      · rw [if_pos hbk]
        exact ih _ _ (fun x hx => hall x (List.mem_cons_of_mem _ hx)) (Or.inl ⟨rfl, rfl⟩)
    · simp only [hku]
      rcases hinv with ⟨hb, hbk⟩ | ⟨hbk, hin⟩
      · subst hb
        subst hbk
        have hgt : keyCmp bk ku = .gt := keyCmp_gt_of_lt ku bk hlt
        rw [if_neg (by rw [hgt]; decide)]
        exact ih _ _ (fun x hx => hall x (List.mem_cons_of_mem _ hx)) (Or.inl ⟨rfl, rfl⟩)
      · have hin2 : r ∈ rest := by
          rcases List.mem_cons.1 hin with hh | hh
          · exfalso
            rw [← hh] at hku
            rw [hkr] at hku
            injection hku with hku
            subst hku
            rw [keyCmp_self] at hlt
            cases hlt
          · exact hh
        by_cases hc : keyCmp bk ku = .lt
        · rw [if_pos hc]
          exact ih _ _ (fun x hx => hall x (List.mem_cons_of_mem _ hx)) (Or.inr ⟨hlt, hin2⟩)
        · rw [if_neg hc]
          exact ih _ _ (fun x hx => hall x (List.mem_cons_of_mem _ hx)) (Or.inr ⟨hbk, hin2⟩)

/-- Python `max(..., key=_version_key)` returns `r` when `r` is in the list
and every other element's key is strictly below `r`'s. -/
theorem maxByKey_max (v : String) (rest : List String) (r : String) (kr : VKey)
    (hkr : _version_key r = some kr)
    (hall : ∀ u ∈ v :: rest, u = r ∨ ∃ ku, _version_key u = some ku ∧ keyCmp ku kr = .lt)
    (hin : r ∈ v :: rest) : maxByKey v rest = .ok r := by
  unfold maxByKey
  rcases hall v (List.mem_cons_self v rest) with hv | ⟨kv, hkv, hlt⟩
  · subst hv
    simp only [hkr]
    exact maxByKeyAux_max _ kr hkr rest _ kr
      (fun x hx => hall x (List.mem_cons_of_mem _ hx)) (Or.inl ⟨rfl, rfl⟩)
  · simp only [hkv]
    have hr2 : r ∈ rest := by
      rcases List.mem_cons.1 hin with hh | hh
      · exfalso
        rw [hh] at hkr
        rw [hkv] at hkr
        injection hkr with he
        subst he
        rw [keyCmp_self] at hlt
        cases hlt
      · exact hh
    exact maxByKeyAux_max r kr hkr rest v kv
      (fun x hx => hall x (List.mem_cons_of_mem _ hx)) (Or.inr ⟨hlt, hr2⟩)

theorem mem_log_snoc_sha (log : Log) (u : String) (x : DlKind × String)
    (hx : x ∈ log ++ [(DlKind.sha, u)]) : x ∈ log ∨ x.1 = DlKind.sha := by
  rcases List.mem_append.1 hx with hh | hh
  · exact Or.inl hh
  · rcases List.mem_cons.1 hh with h2 | h2
    · rw [h2]
      exact Or.inr rfl
    · cases h2

theorem artifactsExistAux_log (e : Env) (v cls : String) :
    ∀ (names : List String) (log : Log) (b : Bool) (log2 : Log),
      artifactsExistAux e v cls names log = (b, log2) →
      ∀ x ∈ log2, x ∈ log ∨ x.1 = DlKind.sha := by
  intro names
  induction names with
  | nil =>
    intro log b log2 h x hx
    have hl : log = log2 := congrArg Prod.snd h
    rw [← hl] at hx
    exact Or.inl hx
  | cons a rest ih =>
    intro log b log2 h x hx
    rw [artifactsExistAux] at h
    cases hn : e.net (artifactShaUrl a v cls) with
    | none =>
      simp only [hn] at h
      have hl : log ++ [(DlKind.sha, artifactShaUrl a v cls)] = log2 := congrArg Prod.snd h
      rw [← hl] at hx
      exact mem_log_snoc_sha log _ x hx
    | some bytes =>
      simp only [hn] at h
      cases hd : decodeStrip bytes with
      | none =>
        simp only [hd] at h
        have hl : log ++ [(DlKind.sha, artifactShaUrl a v cls)] = log2 := congrArg Prod.snd h
        rw [← hl] at hx
        exact mem_log_snoc_sha log _ x hx
      | some digest =>
        simp only [hd] at h
        by_cases hlen : digest.length < 40
        · rw [if_pos hlen] at h
          have hl : log ++ [(DlKind.sha, artifactShaUrl a v cls)] = log2 := congrArg Prod.snd h
          rw [← hl] at hx
          exact mem_log_snoc_sha log _ x hx
        · rw [if_neg hlen] at h
          rcases ih (log ++ [(DlKind.sha, artifactShaUrl a v cls)]) b log2 h x hx with hh | hh
          · exact mem_log_snoc_sha log _ x hh
          · exact Or.inr hh

theorem pickVersion_log (e : Env) (cls : String) (jv : Int) :
    ∀ (versions : List String) (log : Log) (out : Option String) (log2 : Log),
      pickVersion e cls jv versions log = (out, log2) →
      ∀ x ∈ log2, x ∈ log ∨ x.1 = DlKind.sha := by
  intro versions
  induction versions with
  | nil =>
    intro log out log2 h x hx
    have hl : log = log2 := congrArg Prod.snd h
    rw [← hl] at hx
    exact Or.inl hx
  | cons v rest ih =>
    intro log out log2 h x hx
    rw [pickVersion] at h
    cases hr : _required_java_version v with
    | none =>
      simp only [hr] at h
      exact ih log out log2 h x hx
    | some req =>
      simp only [hr] at h
      by_cases hgt : (req : Int) > jv
      · rw [if_pos hgt] at h
        exact ih log out log2 h x hx
      · rw [if_neg hgt] at h
        rcases hae : _artifacts_exist e v cls log with ⟨ab, alog⟩
        rw [hae] at h
        have hae2 : artifactsExistAux e v cls ARTIFACT_NAMES log = (ab, alog) := hae
        cases ab
        · rcases ih alog out log2 h x hx with hh | hh
          · exact artifactsExistAux_log e v cls ARTIFACT_NAMES log false alog hae2 x hh
          · exact Or.inr hh
        · have hl : alog = log2 := congrArg Prod.snd h
          rw [← hl] at hx
          exact artifactsExistAux_log e v cls ARTIFACT_NAMES log true alog hae2 x hx

theorem iter_log_eq (e : Env) :
    (_iter_versions_from_metadata e).2 = [(DlKind.metadata, MAVEN_METADATA_URL)] := by
  unfold _iter_versions_from_metadata
  cases hn : e.net MAVEN_METADATA_URL with
  | none =>
    simp only [hn]
  | some bytes =>
    simp only [hn]
    cases hd : utf8Decode bytes with
    | none => simp only [hd]
    | some xml => simp only [hd]

theorem detect_latest_log (e : Env) (jv : Int) (o : Option String) (log : Log)
    (h : detect_latest_remote_version e jv = .ok (o, log)) :
    ∀ x ∈ log, x.1 = DlKind.metadata ∨ x.1 = DlKind.sha := by
  intro x hx
  unfold detect_latest_remote_version at h
  cases hc : e.classifier with
  | none =>
    simp only [hc] at h
    injection h with h2
    have hl : ([] : Log) = log := congrArg Prod.snd h2
    rw [← hl] at hx
    cases hx
  | some cls =>
    simp only [hc] at h
    rcases hit : _iter_versions_from_metadata e with ⟨res, ilog⟩
    rw [hit] at h
    have hilog : ilog = [(DlKind.metadata, MAVEN_METADATA_URL)] := by
      have h0 := iter_log_eq e
      rw [hit] at h0
      exact h0
    cases res with
    | error err => cases h
    | ok versions =>
      have h3 : (if versions = [] then (Except.ok (none, ilog) : Except Unit (Option String × Log))
          else Except.ok (pickVersion e cls jv versions.reverse ilog)) = Except.ok (o, log) := h
      by_cases hv : versions = []
      · rw [if_pos hv] at h3
        injection h3 with h2
        have hl : ilog = log := congrArg Prod.snd h2
        rw [← hl, hilog] at hx
        rcases List.mem_cons.1 hx with hh | hh
        · rw [hh]
          exact Or.inl rfl
        · cases hh
      · rw [if_neg hv] at h3
        rcases hpk : pickVersion e cls jv versions.reverse ilog with ⟨pko, pklog⟩
        rw [hpk] at h3
        injection h3 with h2
        have hl : pklog = log := congrArg Prod.snd h2
        rw [← hl] at hx
        rcases pickVersion_log e cls jv versions.reverse ilog pko pklog hpk x hx with hh | hh
        · rw [hilog] at hh
          rcases List.mem_cons.1 hh with h3 | h3
          · rw [h3]
            exact Or.inl rfl
          · cases h3
        · exact Or.inr hh

/-- The desired-release stage performs no artifact binary download: its log
holds only the metadata fetch and digest probes. -/
theorem updDesired_log (e : Env) (tv : Option String) (jv : Option Int) (d : Option String)
    (log : Log) (h : updDesired e tv jv = .ok (d, log)) :
    ∀ x ∈ log, x.1 ≠ DlKind.jar := by
  intro x hx
  unfold updDesired at h
  cases tv with
  | some t =>
    injection h with h2
    have hl : ([] : Log) = log := congrArg Prod.snd h2
    rw [← hl] at hx
    cases hx
  | none =>
    have h2 : detect_latest_remote_version e (jv.getD 21) = .ok (d, log) := h
    rcases detect_latest_log e (jv.getD 21) d log h2 x hx with hh | hh
    · rw [hh]
      decide
    · rw [hh]
      decide

/-- After a successful fetch pass for release `r` (dash- and slash-free,
nonempty), the scan of the resulting store counts all four artifact kinds
for `r`: `r` is a complete cached release. -/
theorem fetch_complete (e : Env) (force : Bool) (cls r : String) (fs : FS) (log : Log)
    (fs2 : FS) (log2 : Log)
    (hcs : ∀ c ∈ cls.data, c ≠ '/')
    (hrne : r.data ≠ [])
    (hrd : ∀ c ∈ r.data, c ≠ '-')
    (hrs : ∀ c ∈ r.data, c ≠ '/')
    (hf : fetchAll e force cls r ARTIFACT_NAMES fs log = (true, fs2, log2)) :
    r ∈ completeVersions (cacheCaps cls fs2.names) := by
  rw [mem_completeVersions_iff, cacheCaps_count]
  have hne : ∀ n1 n2 : String, n1 ∈ ARTIFACT_NAMES → n2 ∈ ARTIFACT_NAMES → n1 ≠ n2 →
      jarFileName n1 r cls ≠ jarFileName n2 r cls := by
    intro n1 n2 h1 h2 hnn heq
    obtain ⟨_, _, _, _, hs1⟩ := artifact_form n1 h1
    obtain ⟨_, _, _, _, hs2⟩ := artifact_form n2 h2
    exact hnn (jarFileName_inj n1 n2 r cls hs1 hs2 hrs hcs heq)
  have hnodup : (ARTIFACT_NAMES.map (fun n => jarFileName n r cls)).Nodup := by
    simp only [ARTIFACT_NAMES, List.map_cons, List.map_nil]
    refine List.nodup_cons.2 ⟨?_, List.nodup_cons.2 ⟨?_, List.nodup_cons.2 ⟨?_,
      List.nodup_cons.2 ⟨?_, List.nodup_nil⟩⟩⟩⟩
    · intro hmem
      rcases List.mem_cons.1 hmem with hh | hh
      · exact hne "javafx-base" "javafx-graphics" (by decide) (by decide) (by decide) hh
      · rcases List.mem_cons.1 hh with hh | hh
        · exact hne "javafx-base" "javafx-controls" (by decide) (by decide) (by decide) hh
        · rcases List.mem_cons.1 hh with hh | hh
          · exact hne "javafx-base" "javafx-media" (by decide) (by decide) (by decide) hh
          · cases hh
    · intro hmem
      rcases List.mem_cons.1 hmem with hh | hh
      · exact hne "javafx-graphics" "javafx-controls" (by decide) (by decide) (by decide) hh
      · rcases List.mem_cons.1 hh with hh | hh
        · exact hne "javafx-graphics" "javafx-media" (by decide) (by decide) (by decide) hh
        · cases hh
    · intro hmem
      rcases List.mem_cons.1 hmem with hh | hh
      · exact hne "javafx-controls" "javafx-media" (by decide) (by decide) (by decide) hh
      · cases hh
    · intro hmem
      cases hmem
  have hmem : ∀ t ∈ ARTIFACT_NAMES.map (fun n => jarFileName n r cls),
      t ∈ fs2.names ∧ ((cacheVersionOf cls t == some r) && globMatch t) = true := by
    intro t ht
    obtain ⟨name, hname, hteq⟩ := List.mem_map.1 ht
    subst hteq
    constructor
    · rw [FS.mem_names_iff]
      have hts := fetchAll_targets e force cls r ARTIFACT_NAMES fs log fs2 log2 hf name hname
      intro hnone
      rw [hnone] at hts
      cases hts
    · obtain ⟨hcap, hglob⟩ := target_capture name r cls hname hcs hrne hrd hrs
      rw [hcap, hglob]
      simp
  have hts := countP_ge_of_nodup_mem (ARTIFACT_NAMES.map (fun n => jarFileName n r cls))
    fs2.names (fun nm => (cacheVersionOf cls nm == some r) && globMatch nm) hnodup hmem
  rw [List.length_map] at hts
  exact hts

/-- The fetch pass adds no cache entries for any version other than the one
it installs: every other version's capture count can only shrink. -/
theorem fetch_count_transfer (e : Env) (force : Bool) (cls r : String) (fs : FS) (log : Log)
    (ok : Bool) (fs2 : FS) (log2 : Log) (v : String)
    (hcs : ∀ c ∈ cls.data, c ≠ '/')
    (hrne : r.data ≠ [])
    (hrd : ∀ c ∈ r.data, c ≠ '-')
    (hrs : ∀ c ∈ r.data, c ≠ '/')
    (hf : fetchAll e force cls r ARTIFACT_NAMES fs log = (ok, fs2, log2))
    (hvr : v ≠ r) :
    (cacheCaps cls fs2.names).count v ≤ (cacheCaps cls fs.names).count v := by
  rw [cacheCaps_count, cacheCaps_count]
  apply countP_le_transfer fs2.names fs.names _ (FS.names_nodup fs2)
  intro nm hnm hpred
  rw [Bool.and_eq_true] at hpred
  have hglob : globMatch nm = true := hpred.2
  have hcap : cacheVersionOf cls nm = some v := eq_of_beq hpred.1
  have hl2 : ∃ bytes, fs2.lookup nm = some bytes := by
    have hnn := (FS.mem_names_iff fs2 nm).1 hnm
    cases hlk : fs2.lookup nm with
    | none => exact absurd hlk hnn
    | some bytes => exact ⟨bytes, rfl⟩
  obtain ⟨bytes, hl2⟩ := hl2
  rcases fetchAll_lookup e force cls r ARTIFACT_NAMES fs log ok fs2 log2 hf nm bytes hl2 with
    hh | ⟨name, hnamem, hshape, _⟩
  · rw [FS.mem_names_iff]
    intro hc
    rw [hc] at hh
    cases hh
  · rcases hshape with hh | hh
    · rw [hh, globMatch_tempName] at hglob
      cases hglob
    · rw [hh] at hcap
      obtain ⟨hc2, _⟩ := target_capture name r cls hnamem hcs hrne hrd hrs
      rw [hc2] at hcap
      injection hcap with hcap
      exact absurd hcap.symm hvr

/-- The `not force and current and key(current) >= key(desired)` guard, when
it does NOT fire on a truthy current, pins `current`'s key strictly below
the desired key. -/
theorem skipCheck_false_lt (best r : String) (kr : VKey)
    (hbne : best ≠ "") (hkr : _version_key r = some kr)
    (hskip : skipCheck false (some best) r = .ok false) :
    ∃ kb, _version_key best = some kb ∧ keyCmp kb kr = .lt := by
  unfold skipCheck at hskip
  rw [if_neg (by decide : ¬(false : Bool) = true)] at hskip
  have hs2 : (if best = "" then (.ok false : Except Unit Bool) else
      match _version_key best with
      | none => .error ()
      | some kc =>
        match _version_key r with
        | none => .error ()
        | some kd => .ok (match keyCmp kc kd with | .lt => false | _ => true)) =
      .ok false := hskip
  rw [if_neg hbne] at hs2
  cases hkb : _version_key best with
  | none =>
    simp only [hkb] at hs2
    cases hs2
  | some kb =>
    simp only [hkb, hkr] at hs2
    refine ⟨kb, rfl, ?_⟩
    cases hcmp : keyCmp kb kr with
    | lt => rfl
    | eq =>
      simp only [hcmp] at hs2
      injection hs2 with hb
      cases hb
    | gt =>
      simp only [hcmp] at hs2
      injection hs2 with hb
      cases hb

/-- The guard fires when the cached release equals the (truthy) desired
release: the update is skipped. -/
theorem skipCheck_same (r : String) (kr : VKey) (hrne : r ≠ "")
    (hkr : _version_key r = some kr) :
    skipCheck false (some r) r = .ok true := by
  show (if r = "" then (.ok false : Except Unit Bool) else
    match _version_key r with
    | none => .error ()
    | some kc =>
      match _version_key r with
      | none => .error ()
      | some kd => .ok (match keyCmp kc kd with | .lt => false | _ => true)) = .ok true
  rw [if_neg hrne]
  simp only [hkr]
  rw [keyCmp_self]

/-- When the guard declines to skip, every complete version of the scanned
store has a key strictly below the desired release's key. -/
theorem detect_bound (e : Env) (fs : FS) (cls : String) (current : Option String)
    (r : String) (kr : VKey)
    (hcls : e.classifier = some cls)
    (hwf : fs.dirExists = true ∨ fs.files = [])
    (hdet : detect_cached_version e fs = .ok current)
    (hskip : skipCheck false current r = .ok false)
    (hkr : _version_key r = some kr) :
    ∀ v ∈ completeVersions (cacheCaps cls fs.names),
      ∃ kv, _version_key v = some kv ∧ keyCmp kv kr = .lt := by
  intro v hv
  unfold detect_cached_version at hdet
  simp only [hcls] at hdet
  by_cases hdir : fs.dirExists = false
  · rcases hwf with hw | hw
    · rw [hw] at hdir
      cases hdir
    · exfalso
      have hnames : fs.names = [] := by
        unfold FS.names
        rw [hw]
        rfl
      rw [hnames] at hv
      simp [cacheCaps, completeVersions, tally] at hv
  · rw [if_neg hdir] at hdet
    cases hcv : completeVersions (cacheCaps cls fs.names) with
    | nil =>
      rw [hcv] at hv
      cases hv
    | cons v0 rest0 =>
      rw [hcv] at hdet hv
      cases hmx : maxByKey v0 rest0 with
      | error err =>
        simp only [hmx] at hdet
        cases hdet
      | ok best =>
        simp only [hmx] at hdet
        injection hdet with hdet2
        rw [← hdet2] at hskip
        obtain ⟨hbmem, kb, hkb, hball⟩ := maxByKey_spec v0 rest0 best hmx
        have hbne : best ≠ "" := by
          have hbcv : best ∈ completeVersions (cacheCaps cls fs.names) := by
            rw [hcv]
            exact hbmem
          have hbcount := (mem_completeVersions_iff _ best).1 hbcv
          have hbpos : 0 < (cacheCaps cls fs.names).count best := by
            have hl4 : 0 < ARTIFACT_NAMES.length := by decide
            omega
          have hbin : best ∈ cacheCaps cls fs.names := List.count_pos_iff.1 hbpos
          unfold cacheCaps at hbin
          obtain ⟨nm, _, hcapnm⟩ := List.mem_filterMap.1 hbin
          exact (cacheVersionOf_sub cls nm best hcapnm).1
        obtain ⟨kb2, hkb2, hblt⟩ := skipCheck_false_lt best r kr hbne hkr hskip
        rw [hkb] at hkb2
        injection hkb2 with he
        subst he
        obtain ⟨kv, hkv, hnlt⟩ := hball v hv
        exact ⟨kv, hkv, keyCmp_nlt_lt_trans kb kv kr hnlt hblt⟩

/-- After a successful non-forced fetch of a dotted-numeric release `r`, a
re-scan of the store detects exactly `r` as the newest complete release. -/
theorem detect_after_fetch (e : Env) (fs0 : FS) (cls : String) (current : Option String)
    (r : String) (kr : VKey) (force : Bool) (log : Log) (fs1 : FS) (log1 : Log)
    (hcls : e.classifier = some cls)
    (hwf0 : fs0.dirExists = true ∨ fs0.files = [])
    (hdet0 : detect_cached_version e fs0 = .ok current)
    (hskip : skipCheck false current r = .ok false)
    (hf : fetchAll e force cls r ARTIFACT_NAMES (ensureDirectory fs0) log = (true, fs1, log1))
    (hkr : _version_key r = some kr)
    (hrdot : ∀ c ∈ r.data, c.isDigit = true ∨ c = '.') :
    detect_cached_version e fs1 = .ok (some r) := by
  have hrne : r.data ≠ [] := by
    intro hc
    have hk2 : _version_key r = none := by
      unfold _version_key
      rw [hc]
      rfl
    rw [hk2] at hkr
    cases hkr
  have hrd : ∀ c ∈ r.data, c ≠ '-' := by
    intro c hcm he
    rcases hrdot c hcm with hd | hd
    · rw [he] at hd
      exact absurd hd (by decide)
    · rw [he] at hd
      exact absurd hd (by decide)
  have hrs : ∀ c ∈ r.data, c ≠ '/' := by
    intro c hcm he
    rcases hrdot c hcm with hd | hd
    · rw [he] at hd
      exact absurd hd (by decide)
    · rw [he] at hd
      exact absurd hd (by decide)
  have hcs := classifier_noSlash e cls hcls
  have hdir1 : fs1.dirExists = true := by
    have hde := fetchAll_dirExists e force cls r ARTIFACT_NAMES (ensureDirectory fs0) log
      true fs1 log1 hf
    rw [hde]
    rfl
  have hin : r ∈ completeVersions (cacheCaps cls fs1.names) :=
    fetch_complete e force cls r (ensureDirectory fs0) log fs1 log1 hcs hrne hrd hrs hf
  have hnames0 : (ensureDirectory fs0).names = fs0.names := rfl
  have hall : ∀ v ∈ completeVersions (cacheCaps cls fs1.names),
      v = r ∨ ∃ kv, _version_key v = some kv ∧ keyCmp kv kr = .lt := by
    intro v hv
    by_cases hvr : v = r
    · exact Or.inl hvr
    · refine Or.inr ?_
      have hc1 := (mem_completeVersions_iff _ v).1 hv
      have htr := fetch_count_transfer e force cls r (ensureDirectory fs0) log true fs1 log1 v
        hcs hrne hrd hrs hf hvr
      rw [hnames0] at htr
      have hc0 : v ∈ completeVersions (cacheCaps cls fs0.names) := by
        rw [mem_completeVersions_iff]
        omega
      exact detect_bound e fs0 cls current r kr hcls hwf0 hdet0 hskip hkr v hc0
  unfold detect_cached_version
  simp only [hcls]
  rw [if_neg (by
    intro hc
    rw [hdir1] at hc
    cases hc)]
  cases hcv : completeVersions (cacheCaps cls fs1.names) with
  | nil =>
    rw [hcv] at hin
    cases hin
  | cons v0 rest0 =>
    rw [hcv] at hin hall
    have hmx := maxByKey_max v0 rest0 r kr hkr hall hin
    show (match maxByKey v0 rest0 with
      | .ok best => (.ok (some best) : Except Unit (Option String))
      | .error err => .error err) = .ok (some r)
    rw [hmx]

/-- C3 as amended: when `update_javafx` returns `r` as a freshly fetched
desired release (all artifact fetches succeeded), and `r` is a plain
dotted-numeric identifier (no textual suffix), then the scan
`detect_cached_version` performs on the resulting store counts all four
artifact files of `r`: `r` is among its complete cached releases.  (A
suffixed identifier such as `23-ea` is NOT recognized by the cached-file
pattern — see the counterexample.) -/
theorem c3_amended_completeness :
    ∀ (e : Env) (fs : FS) (tv : Option String) (jv : Option Int)
      (force clear kl : Bool) (mcc mcs : Int) (cls : String) (fs1 : FS)
      (current : Option String) (r : String) (log : Log) (fs2 : FS) (log2 : Log),
      e.classifier = some cls →
      updAfterEvict e fs clear kl mcc mcs = .ok fs1 →
      detect_cached_version e fs1 = .ok current →
      updDesired e tv jv = .ok (some r, log) →
      skipCheck force current r = .ok false →
      fetchAll e force cls r ARTIFACT_NAMES (ensureDirectory fs1) log = (true, fs2, log2) →
      r ≠ "" →
      (∀ c ∈ r.data, c.isDigit = true ∨ c = '.') →
      update_javafx e fs tv jv force clear kl mcc mcs = .ok (some r, fs2, log2) ∧
      r ∈ completeVersions (cacheCaps cls fs2.names) := by
  intro e fs tv jv force clear kl mcc mcs cls fs1 current r log fs2 log2
    h1 h2 h3 h4 h5 h6 h7 h8
  constructor
  · simp only [update_javafx, h1, h2, h3, h4, h5, h6]
  · have hrne : r.data ≠ [] := by
      intro hc
      apply h7
      cases r with
      | mk d =>
        have hd : d = [] := hc
        rw [hd]
    have hrd : ∀ c ∈ r.data, c ≠ '-' := by
      intro c hcm he
      rcases h8 c hcm with hd | hd
      · rw [he] at hd
        exact absurd hd (by decide)
      · rw [he] at hd
        exact absurd hd (by decide)
    have hrs : ∀ c ∈ r.data, c ≠ '/' := by
      intro c hcm he
      rcases h8 c hcm with hd | hd
      · rw [he] at hd
        exact absurd hd (by decide)
      · rw [he] at hd
        exact absurd hd (by decide)
    have hcs := classifier_noSlash e cls h1
    exact fetch_complete e force cls r (ensureDirectory fs1) log fs2 log2 hcs hrne hrd hrs h6

/-- Witness for the amended C3: a successful non-forced update to release
`21` on an empty store installs all four artifacts, and `21` is then a
complete cached release of the resulting store. -/
theorem c3_amended_completeness_witness :
    update_javafx envC3w ⟨true, []⟩ (some "21") none false false false 100 100000 =
      .ok (some "21", fsC3w, logC3w) ∧
    "21" ∈ completeVersions (cacheCaps "linux" fsC3w.names) :=
  c3_amended_completeness envC3w ⟨true, []⟩ (some "21") none false false false 100 100000
    "linux" ⟨true, []⟩ none "21" [] fsC3w logC3w rfl rfl rfl rfl rfl rfl
    (by decide) (by decide)

/-- Counterexample for C8: with `force=True` and identical arguments, and no
change to the environment between the calls, the second call of
`update_javafx` downloads every artifact binary again — its download log
contains the jar downloads — contradicting the claim that a repeated call
performs at most digest re-validation fetches. -/
theorem c8_counterexample :
    update_javafx envC8c ⟨true, []⟩ (some "21") none true false false 100 100000 =
      .ok (some "21", fsC8c, logC8c) ∧
    update_javafx envC8c fsC8c (some "21") none true false false 100 100000 =
      .ok (some "21", fsC8c, logC8c) ∧
    (DlKind.jar, artifactJarUrl "javafx-base" "21" "linux") ∈ logC8c := by
  refine ⟨rfl, rfl, ?_⟩
  decide

/-- C8 as amended: without `force`, a second call with identical arguments
is idempotent.  After a first call that successfully fetched a dotted-numeric
release `r` (within the cache bounds, against an unchanged environment), the
second call returns the same release `r`, leaves the store untouched, and
downloads no artifact binary: its log is exactly the desired-release stage's
log, which contains no jar download. -/
theorem c8_amended_idempotent_unforced :
    ∀ (e : Env) (fs0 : FS) (tv : Option String) (jv : Option Int) (kl : Bool)
      (mcc mcs : Int) (cls : String) (current : Option String) (r : String)
      (logd : Log) (kr : VKey) (fs1 : FS) (log1 : Log),
      e.classifier = some cls →
      (fs0.dirExists = true ∨ fs0.files = []) →
      ((_cache_entries fs0).length : Int) ≤ mcc →
      ((_cache_size fs0 : Int)) ≤ mcs →
      detect_cached_version e fs0 = .ok current →
      updDesired e tv jv = .ok (some r, logd) →
      skipCheck false current r = .ok false →
      fetchAll e false cls r ARTIFACT_NAMES (ensureDirectory fs0) logd = (true, fs1, log1) →
      _version_key r = some kr →
      (∀ c ∈ r.data, c.isDigit = true ∨ c = '.') →
      ((_cache_entries fs1).length : Int) ≤ mcc →
      ((_cache_size fs1 : Int)) ≤ mcs →
      update_javafx e fs0 tv jv false false kl mcc mcs = .ok (some r, fs1, log1) ∧
      update_javafx e fs1 tv jv false false kl mcc mcs = .ok (some r, fs1, logd) ∧
      ∀ u : String, (DlKind.jar, u) ∉ logd := by
  intro e fs0 tv jv kl mcc mcs cls current r logd kr fs1 log1
    h1 h2 h3 h4 h5 h6 h7 h8 h9 h10 h11 h12
  have hev0 : updAfterEvict e fs0 false kl mcc mcs = .ok fs0 := by
    unfold updAfterEvict
    rw [if_neg (by
      rintro (hc | hc | hc)
      · cases hc
      · omega
      · omega)]
  have hev1 : updAfterEvict e fs1 false kl mcc mcs = .ok fs1 := by
    unfold updAfterEvict
    rw [if_neg (by
      rintro (hc | hc | hc)
      · cases hc
      · omega
      · omega)]
  have hdet1 : detect_cached_version e fs1 = .ok (some r) :=
    detect_after_fetch e fs0 cls current r kr false logd fs1 log1 h1 h2 h5 h7 h8 h9 h10
  have hrne : r ≠ "" := by
    intro hc
    rw [hc] at h9
    have hnone : _version_key "" = none := by decide
    rw [hnone] at h9
    cases h9
  have hskip2 : skipCheck false (some r) r = .ok true := skipCheck_same r kr hrne h9
  refine ⟨?_, ?_, ?_⟩
  · simp only [update_javafx, h1, hev0, h5, h6, h7, h8]
  · simp only [update_javafx, h1, hev1, hdet1, h6, hskip2]
  · intro u hu
    exact updDesired_log e tv jv (some r) logd h6 (DlKind.jar, u) hu rfl

/-- Witness for the amended C8: a first non-forced call on an empty store
installs release `21`; the second identical call returns `21` again, leaves
the store unchanged, and performs no download at all. -/
theorem c8_amended_idempotent_unforced_witness :
    update_javafx envC8w ⟨true, []⟩ (some "21") none false false false 100 100000 =
      .ok (some "21", fsC8w, logC8w) ∧
    update_javafx envC8w fsC8w (some "21") none false false false 100 100000 =
      .ok (some "21", fsC8w, []) ∧
    ∀ u : String, (DlKind.jar, u) ∉ ([] : Log) :=
  c8_amended_idempotent_unforced envC8w ⟨true, []⟩ (some "21") none false 100 100000
    "linux" none "21" [] ([21], "") fsC8w logC8w
    rfl (Or.inl rfl) (by decide) (by decide) rfl rfl rfl rfl (by decide) (by decide)
    (by decide) (by decide)

end PyLauncher
